import Mathlib

/-! Power monitor (`POWER_MONITOR/power_monitor.c`): LINEAR11 decoding and the
sampling / averaging loop.

A shallow embedding of `power_monitor.c` and the properties of its telemetry
engine.

Conventions of the embedding

* C integers are `Nat` / `Int` with the conversions to the narrow types written
  out (`toUnsignedShort`, `toSignedChar`, `toSignedShort` reduce modulo `2^w`).
* `float` / `double` values are exact rationals (`ℚ`); the conversions between
  `int`, `float` and `double` are the identity on `ℚ`.
* The I2C bus is an environment `Bus`: it answers every operation with the
  `int` status the C call returns, as a function of the operations issued so far.
* `exit(1)` is the `Except.error` outcome, carrying the state of the process at
  the moment it stops; `Except.ok` is normal continuation.
-/

namespace PowerMonitor

/-! ## Machine integers -/

/-- Conversion of an `int` value to `unsigned short` (16 bits). -/
def toUnsignedShort (n : Nat) : Nat := n % 65536

/-- Conversion of an `int` value to `signed char` (8 bits, wrapping). -/
def toSignedChar (n : Int) : Int := (n + 128) % 256 - 128

/-- Conversion of an `int` value to `signed short` (16 bits, wrapping). -/
def toSignedShort (n : Int) : Int := (n + 32768) % 65536 - 32768

/-! ## `linear11ToFloat` (lines 156-180) -/

/-- The function `linear11ToFloat` of `power_monitor.c`: both arguments are
`unsigned char` values. -/
def linear11ToFloat (highByte lowByte : Nat) : ℚ :=
  -- combinedWord = highByte; combinedWord <<= 8; combinedWord += lowByte;
  let combinedWord : Nat := toUnsignedShort highByte
  let combinedWord : Nat := toUnsignedShort (combinedWord <<< 8)
  let combinedWord : Nat := toUnsignedShort (combinedWord + lowByte)
  -- exponent = combinedWord >> 11; mantissa = combinedWord & 0x7ff;
  let exponent : Int := toSignedChar ((combinedWord >>> 11 : Nat) : Int)
  let mantissa : Int := toSignedShort ((combinedWord &&& 0x7ff : Nat) : Int)
  -- if(exponent > 0x0f) exponent |= 0xe0;
  let exponent : Int :=
    if exponent > 0x0f then toSignedChar (Int.lor exponent 0xe0) else exponent
  -- if(mantissa > 0x03ff) mantissa |= 0xf800;
  let mantissa : Int :=
    if mantissa > 0x03ff then toSignedShort (Int.lor mantissa 0xf800) else mantissa
  -- current = mantissa * pow(2.0, exponent); return (float)current;
  let current : ℚ := (mantissa : ℚ) * (2 : ℚ) ^ exponent
  current

/-! ## The LINEAR11 format as the specification words it -/

/-- Bits `lo .. lo + n - 1` of the word `w`, as an unsigned number. -/
def bitField (w lo n : Nat) : Nat := w / 2 ^ lo % 2 ^ n

/-- A raw 5-bit value read as a two's-complement integer. -/
def signed5 (r : Nat) : Int := if r ≤ 15 then (r : Int) else (r : Int) - 32

/-- A raw 11-bit value read as a two's-complement integer. -/
def signed11 (r : Nat) : Int := if r ≤ 1023 then (r : Int) else (r : Int) - 2048

/-- The 16-bit LINEAR11 word of an exponent and a mantissa, as the round-trip
property words it: `((e mod 32) << 11) | (m mod 2048)`. -/
def encodeLinear11 (e m : Int) : Nat :=
  ((e % 32).toNat <<< 11) ||| (m % 2048).toNat

/-- High byte of a 16-bit word. -/
def highByteOf (w : Nat) : Nat := (w >>> 8) &&& 0xff

/-- Low byte of a 16-bit word. -/
def lowByteOf (w : Nat) : Nat := w &&& 0xff

/-! ## The bus and the console -/

/-- PMBus command code `CMD_PAGE` (line 72). -/
def CMD_PAGE : Nat := 0x00

/-- PMBus command code `CMD_READ_VOUT` (line 73). -/
def CMD_READ_VOUT : Nat := 0x8B

/-- PMBus command code `CMD_READ_IOUT` (line 74). -/
def CMD_READ_IOUT : Nat := 0x8C

/-- The three calls the program makes on the I2C file descriptor. -/
inductive BusOp where
  /-- The call `ioctl(iic_fd, I2C_SLAVE, address)`. -/
  | setSlave (address : Nat)
  /-- The call `i2c_smbus_write_byte_data(iic_fd, command, value)`. -/
  | writeByteData (command value : Nat)
  /-- The call `i2c_smbus_read_word_data(iic_fd, command)`. -/
  | readWordData (command : Nat)
  deriving DecidableEq, Repr

/-- The bus as the program sees it: the `int` each call returns, given the
calls issued so far, the current one first. A negative value is a failure.
Every sequence of answers is such a function (of the number of calls made), so
a statement for all buses covers every behaviour of the devices. -/
abbrev Bus := List BusOp → Int

/-- What the program writes to standard output, one constructor per `printf`
group of the source. -/
inductive Output where
  /-- Line 187 / 213: `ERROR: Unable to set I2C slave address`. -/
  | errorSlave (deviceAddress : Nat)
  /-- Line 193 / 219: `ERROR: Unable to write page address`. -/
  | errorPage (deviceAddress : Nat) (status : Int)
  /-- Line 200: `ERROR: Unable to read VOUT`. -/
  | errorVout (deviceAddress : Nat) (status : Int)
  /-- Line 226: `ERROR: Unable to read IOUT`. -/
  | errorIout (deviceAddress : Nat) (status : Int)
  /-- Line 256: `ERROR: Unable to open /dev/i2c-1`. -/
  | errorOpen (iic_fd : Int)
  /-- Line 268: clear the screen. -/
  | clearScreen
  /-- Lines 278-282: the table header. -/
  | header
  /-- Line 294: one rail row: name, voltage, `average_current * 1000`,
  `average_power`. -/
  | row (name : String) (voltage milliamps power : ℚ)
  /-- Lines 304-305: the rule and the `TOTAL POWER` / `MAX POWER` line. -/
  | footer (totalPower maxpower : ℚ)
  deriving DecidableEq, Repr

/-- Everything outside the process: the bus calls issued and the lines
printed, both newest first. -/
structure World where
  ops : List BusOp
  out : List Output
  deriving DecidableEq, Repr

/-- Issue one bus call: it is appended to the calls made and the bus answers. -/
def World.call (bus : Bus) (op : BusOp) (w : World) : Int × World :=
  (bus (op :: w.ops), { w with ops := op :: w.ops })

/-- One `printf`. -/
def World.print (o : Output) (w : World) : World :=
  { w with out := o :: w.out }

/-! ## `readVoltage` (lines 182-206) and `readCurrent` (lines 208-238) -/

/-- The function `readVoltage`. `Except.error` is `exit(1)`. -/
def readVoltage (bus : Bus) (deviceAddress pageAddress : Nat) (w : World) :
    Except World (ℚ × World) :=
  -- if (ioctl(iic_fd, I2C_SLAVE, 0x70) < 0) { printf(...); exit(1); }
  let (r, w) := w.call bus (.setSlave 0x70)
  if r < 0 then .error (w.print (.errorSlave deviceAddress)) else
  -- status = i2c_smbus_write_byte_data(iic_fd, CMD_PAGE, pageAddress);
  let (status, w) := w.call bus (.writeByteData CMD_PAGE pageAddress)
  if status < 0 then .error (w.print (.errorPage deviceAddress status)) else
  -- status = i2c_smbus_read_word_data(iic_fd, CMD_READ_VOUT);
  let (status, w) := w.call bus (.readWordData CMD_READ_VOUT)
  if status < 0 then .error (w.print (.errorVout deviceAddress status)) else
  -- voltage = status / 4096.0f; return voltage;
  let voltage : ℚ := (status : ℚ) / 4096
  .ok (voltage, w)

/-- The function `readCurrent`. `Except.error` is `exit(1)`. -/
def readCurrent (bus : Bus) (deviceAddress pageAddress : Nat) (w : World) :
    Except World (ℚ × World) :=
  -- if (ioctl(iic_fd, I2C_SLAVE, 0x70) < 0) { printf(...); exit(1); }
  let (r, w) := w.call bus (.setSlave 0x70)
  if r < 0 then .error (w.print (.errorSlave deviceAddress)) else
  -- status = i2c_smbus_write_byte_data(iic_fd, CMD_PAGE, pageAddress);
  let (status, w) := w.call bus (.writeByteData CMD_PAGE pageAddress)
  if status < 0 then .error (w.print (.errorPage deviceAddress status)) else
  -- status = i2c_smbus_read_word_data(iic_fd, CMD_READ_IOUT);
  let (status, w) := w.call bus (.readWordData CMD_READ_IOUT)
  if status < 0 then .error (w.print (.errorIout deviceAddress status)) else
  -- current = linear11ToFloat((unsigned char)((status >> 8) & 0xff),
  --                           (unsigned char)(status & 0xff));
  let current : ℚ :=
    linear11ToFloat ((status.toNat >>> 8) &&& 0xff) (status.toNat &&& 0xff)
  .ok (current, w)

/-! ## The rail table (lines 76-154) -/

/-- The C structure `voltage_rail`. -/
structure voltage_rail where
  name : String
  device : Nat
  page : Nat
  average_current : ℚ
  average_power : ℚ
  deriving DecidableEq, Repr

/-- The table `zc702_rails` with its initialisers. -/
def zc702_rails : List voltage_rail :=
  [ { name := "VccInt   ", device := 52, page := 0, average_current := 0, average_power := 0 },
    { name := "VccPInt  ", device := 52, page := 1, average_current := 0, average_power := 0 },
    { name := "VccAux   ", device := 52, page := 2, average_current := 0, average_power := 0 },
    { name := "VccPAux  ", device := 52, page := 3, average_current := 0, average_power := 0 },
    { name := "Vadj     ", device := 53, page := 0, average_current := 0, average_power := 0 },
    { name := "Vcc1V5_PS", device := 53, page := 1, average_current := 0, average_power := 0 },
    { name := "VccMIO_PS", device := 53, page := 2, average_current := 0, average_power := 0 },
    { name := "VccBRAM  ", device := 53, page := 3, average_current := 0, average_power := 0 },
    { name := "Vcc3V3   ", device := 54, page := 0, average_current := 0, average_power := 0 },
    { name := "Vcc2V5   ", device := 54, page := 1, average_current := 0, average_power := 0 } ]

/-! ## `main` (lines 240-314) -/

/-- History record: the values the locals `voltage` and `current` of `main`
took in the iteration `(k, i)` of the sampling loops. -/
structure Sample where
  k : Nat
  i : Nat
  voltage : ℚ
  current : ℚ
  deriving DecidableEq, Repr

/-- The state of `main`: the global table, the locals that live across
iterations, the outside world, and a history variable `samples` (newest first,
restarted with each window) that the program never reads. -/
structure MainState where
  rails : List voltage_rail
  totalPower : ℚ
  maxpower : ℚ
  world : World
  samples : List Sample
  deriving DecidableEq, Repr

deriving instance DecidableEq for Except

/-- The loop `for (x = 0; x < n; x++) body`, where the body can `exit`. -/
def forLoop {σ : Type} (body : Nat → σ → Except σ σ) : Nat → σ → Except σ σ
  | 0, s => .ok s
  | n + 1, s =>
    match forLoop body n s with
    | .ok s1 => body n s1
    | .error e => .error e

/-- Body of the inner loop (lines 287-294) for sample index `k` and rail
index `i`; `count` is the local constant of line 252. -/
def railStep (count : Nat) (bus : Bus) (k i : Nat) (s : MainState) :
    Except MainState MainState :=
  match s.rails[i]? with
  | none => .ok s -- not reached: `i < j` and `j` is the length of the table
  | some rail =>
    -- voltage = readVoltage(iic_fd, zc702_rails[i].device, zc702_rails[i].page);
    match readVoltage bus rail.device rail.page s.world with
    | .error w => .error { s with world := w }
    | .ok (voltage, w1) =>
      -- current = readCurrent(iic_fd, zc702_rails[i].device, zc702_rails[i].page);
      match readCurrent bus rail.device rail.page w1 with
      | .error w => .error { s with world := w }
      | .ok (current, w2) =>
        -- power = voltage * current * 1000/count;
        let power : ℚ := voltage * current * 1000 / (count : ℚ)
        -- totalPower += power;
        let totalPower : ℚ := s.totalPower + power
        -- zc702_rails[i].average_current += current/count;
        -- zc702_rails[i].average_power += power;
        let rail1 : voltage_rail :=
          { rail with
            average_current := rail.average_current + current / (count : ℚ)
            average_power := rail.average_power + power }
        -- if(k == count-1) printf(...);
        let w3 : World :=
          if (k : Int) = (count : Int) - 1
          then w2.print (.row rail1.name voltage (rail1.average_current * 1000)
                  rail1.average_power)
          else w2
        .ok { rails := s.rails.set i rail1
              totalPower := totalPower
              maxpower := s.maxpower
              world := w3
              samples := { k := k, i := i, voltage := voltage, current := current }
                          :: s.samples }

/-- Body of the outer loop (lines 286-300) for sample index `k`: one pass over
all rails, then the peak check. -/
def samplePass (count : Nat) (bus : Bus) (k : Nat) (s : MainState) :
    Except MainState MainState :=
  -- for(i = 0; i < j; i++) { ... }   with j = sizeof(zc702_rails) / sizeof(...)
  match forLoop (railStep count bus k) s.rails.length s with
  | .error e => .error e
  | .ok s1 =>
    -- if (maxpower < totalPower) maxpower = totalPower;
    .ok (if s1.maxpower < s1.totalPower then { s1 with maxpower := s1.totalPower } else s1)

/-- Lines 272-282: the resets at the top of the `while` body and the header. -/
def windowReset (s : MainState) : MainState :=
  { rails := s.rails.map fun r => { r with average_power := 0, average_current := 0 }
    totalPower := 0
    maxpower := s.maxpower
    world := s.world.print .header
    samples := [] }

/-- One iteration of `while(1)` (lines 272-308): reset, `count` sample passes,
the footer. The `fflush` and the `usleep` of lines 307-308 change nothing of
the state kept here. -/
def window (count : Nat) (bus : Bus) (s : MainState) : Except MainState MainState :=
  -- for(k = 0; k < count; k++) { ... }
  match forLoop (samplePass count bus) count (windowReset s) with
  | .error e => .error e
  | .ok s1 =>
    -- printf("|TOTAL POWER  %f mW\t  | MAX POWER  %f mW |\n",totalPower,maxpower);
    .ok { s1 with world := s1.world.print (.footer s1.totalPower s1.maxpower) }

/-- The first `windows` iterations of `while(1)`. -/
def mainLoop (count : Nat) (bus : Bus) (windows : Nat) (s : MainState) :
    Except MainState MainState :=
  forLoop (fun _ => window count bus) windows s

/-- The state of `main` when it reaches `while(1)` (lines 251-268). -/
def initialState : MainState :=
  { rails := zc702_rails
    totalPower := 0
    maxpower := 0
    world := { ops := [], out := [.clearScreen] }
    samples := [] }

/-- The function `main`, observed for `windows` iterations of its loop;
`iic_fd` is what `open` returned and `count` is 50. -/
def main (iic_fd : Int) (bus : Bus) (windows : Nat) : Except MainState MainState :=
  if iic_fd < 0 then
    .error { initialState with world := { ops := [], out := [.errorOpen iic_fd] } }
  else
    mainLoop 50 bus windows initialState

/-- A bus that accepts every selection and answers every register read with
`0xFFFF`. -/
def busAllOnes : Bus := fun ops =>
  match ops with
  | .readWordData _ :: _ => 65535
  | _ => 0

/-- The state a run ends in, whether it continues or has exited. -/
def finalState {σ : Type} : Except σ σ → σ
  | .ok s => s
  | .error s => s

/-- Every bus call of the trace (newest first) was answered with a
non-negative status. -/
def allAccepted (bus : Bus) : List BusOp → Bool
  | [] => true
  | op :: rest => decide (0 ≤ bus (op :: rest)) && allAccepted bus rest

/-- The newest bus call of the trace failed and every earlier one succeeded. -/
def failedLast (bus : Bus) : List BusOp → Bool
  | [] => false
  | op :: rest => decide (bus (op :: rest) < 0) && allAccepted bus rest

/-- The output is one of the `ERROR:` lines. -/
def Output.isError : Output → Bool
  | .errorSlave _ => true
  | .errorPage _ _ => true
  | .errorVout _ _ => true
  | .errorIout _ _ => true
  | .errorOpen _ => true
  | _ => false

/-- The rail name of a rail row, `none` for every other output. -/
def Output.rowName? : Output → Option String
  | .row name _ _ _ => some name
  | _ => none

/-- The samples of rail `r` in the history, oldest first. -/
def samplesOf (r : Nat) (samples : List Sample) : List Sample :=
  samples.reverse.filter fun x => decide (x.i = r)

/-! ## One step of the inner loop -/

/-- The rail after the two accumulation statements of lines 291-292. -/
def accumulate (count : Nat) (rail : voltage_rail) (voltage current : ℚ) : voltage_rail :=
  { rail with
    average_current := rail.average_current + current / (count : ℚ)
    average_power := rail.average_power + voltage * current * 1000 / (count : ℚ) }

/-- The accumulators of every rail are the sums of the per-sample terms over
the history. -/
def sumsMatch (count : Nat) (t : MainState) : Prop :=
  ∀ r rail, t.rails[r]? = some rail →
    rail.average_power
        = ((samplesOf r t.samples).map
            fun x => x.voltage * x.current * 1000 / (count : ℚ)).sum ∧
    rail.average_current
        = ((samplesOf r t.samples).map fun x => x.current / (count : ℚ)).sum

/-! ## The accumulation invariant -/

/-- Invariant of the inner loop in pass `k` before rail `i`: every rail before
`i` has samples `0 .. k`, every other rail has samples `0 .. k - 1`. -/
def innerInv (count j k i : Nat) (t : MainState) : Prop :=
  t.rails.length = j ∧ sumsMatch count t ∧
    ∀ r, r < j → (samplesOf r t.samples).map (fun x => x.k)
      = List.range (if r < i then k + 1 else k)

/-- Invariant of the outer loop before pass `n`: every rail has samples
`0 .. n - 1`. -/
def outerInv (count j n : Nat) (t : MainState) : Prop :=
  t.rails.length = j ∧ sumsMatch count t ∧
    ∀ r, r < j → (samplesOf r t.samples).map (fun x => x.k) = List.range n

/-- How a run that has exited looks from outside: the newest bus call failed,
every earlier one succeeded, and the newest output is an `ERROR:` line. -/
def abortedAtFailure (bus : Bus) (e : MainState) : Prop :=
  failedLast bus e.world.ops = true ∧
    ∃ msg rest, e.world.out = msg :: rest ∧ msg.isError = true

/-! ## What has been printed when a window stops -/

/-- Invariant of the inner loop in pass `k` before rail `i`, on the output:
since the header only rail rows were printed, and only in the last pass, one
for each rail before `i` in table order. `names` are the rail names and `out0`
the output before the window. -/
def rowsInner (count j : Nat) (names : List String) (out0 : List Output) (k i : Nat)
    (t : MainState) : Prop :=
  t.rails.map (fun x => x.name) = names ∧ t.samples.length = k * j + i ∧
    ∃ rows, t.world.out = rows ++ Output.header :: out0 ∧
      rows.reverse.map Output.rowName?
        = if k + 1 = count then (names.take i).map some else []

/-- Invariant of the outer loop before pass `n`, on the output. -/
def rowsOuter (count j : Nat) (names : List String) (out0 : List Output) (n : Nat)
    (t : MainState) : Prop :=
  t.rails.map (fun x => x.name) = names ∧ t.samples.length = n * j ∧
    ∃ rows, t.world.out = rows ++ Output.header :: out0 ∧
      rows.reverse.map Output.rowName?
        = if 0 < n ∧ n = count then names.map some else []

/-- The output of a window that exited at sample index `k`, rail index `i`. -/
def abortedOutput (count j : Nat) (names : List String) (out0 : List Output)
    (e : MainState) : Prop :=
  ∃ k i msg rows, k < count ∧ i < j ∧ e.samples.length = k * j + i ∧
    msg.isError = true ∧
    e.world.out = msg :: (rows ++ Output.header :: out0) ∧
    rows.reverse.map Output.rowName?
      = if k + 1 = count then (names.take i).map some else []

/-! ## Concrete buses -/

/-- A bus on which every call succeeds, every voltage read returns `0x3000`
(3 V) and every current read returns `0xF803` (exponent -1, mantissa 3:
1.5 A). -/
def busSteady : Bus := fun ops =>
  match ops with
  | .readWordData command :: _ => if command = CMD_READ_VOUT then 0x3000 else 0xF803
  | _ => 0

/-- The bus `busSteady`, except that every register read before the 2941st bus
call (the first call of sample index 49 in a 50-sample window over 10 rails)
returns 0. -/
def busLastSampleOnly : Bus := fun ops =>
  match ops with
  | .readWordData command :: rest =>
    if rest.length < 2940 then 0
    else if command = CMD_READ_VOUT then 0x3000 else 0xF803
  | _ => 0

/-- A bus on which every call succeeds and every register read returns the
number of bus calls made before it. -/
def busRamp : Bus := fun ops =>
  match ops with
  | .readWordData _ :: rest => (rest.length : Int)
  | _ => 0

/-- A bus on which the `n`-th call fails with status `-1` and every other call
returns 0. -/
def busFailAt (n : Nat) : Bus := fun ops => if ops.length = n then -1 else 0

/-- The state after the first window on `busSteady`. -/
def steadyFinal : MainState := finalState (window 50 busSteady initialState)

/-- The state after the first window on `busLastSampleOnly`. -/
def lastSampleFinal : MainState := finalState (window 50 busLastSampleOnly initialState)

/-- The state after the first window on `busRamp`. -/
def rampFinal : MainState := finalState (window 50 busRamp initialState)

/-- Rail index 3 of the table after the first window on `busRamp`. -/
def rampRail3 : voltage_rail :=
  rampFinal.rails.getD 3
    { name := "", device := 0, page := 0, average_current := 0, average_power := 0 }

/-- The state in which the run stops when the voltage register read of rail
index 3 at sample index 5 fails: it is bus call `6 * (5 * 10 + 3) + 3 = 321`. -/
def abortSample5Rail3 : MainState := finalState (mainLoop 50 (busFailAt 321) 1 initialState)

/-- The state in which the run stops when the device selection of rail index 1
at sample index 49 fails: it is bus call `6 * (49 * 10 + 1) + 1 = 2947`. -/
def abortSample49Rail1 : MainState := finalState (window 50 (busFailAt 2947) initialState)

/-! ## The read protocol -/

/-- The world a read leaves behind, whether it returned or exited. -/
def readWorld : Except World (ℚ × World) → World
  | .ok (_, w) => w
  | .error w => w

/-- In a trace (newest first) every register read comes directly after a write
to `CMD_PAGE`, which comes directly after a device selection. -/
def pageSelectBeforeRead : List BusOp → Bool
  | [] => true
  | .readWordData _ :: rest =>
    (match rest with
      | .writeByteData command _ :: .setSlave _ :: _ => decide (command = CMD_PAGE)
      | _ => false) && pageSelectBeforeRead rest
  | _ :: rest => pageSelectBeforeRead rest

/-! ## Rail identity, and the fields of a LINEAR11 word as the code computes them -/

/-- The configuration of a rail: what the engine must leave alone. -/
def railIdent (r : voltage_rail) : String × Nat × Nat := (r.name, r.device, r.page)

/-- The value of the local `exponent` of `linear11ToFloat` when line 177 is
reached (lines 162-172). -/
def linear11Exponent (highByte lowByte : Nat) : Int :=
  let combinedWord : Nat := toUnsignedShort highByte
  let combinedWord : Nat := toUnsignedShort (combinedWord <<< 8)
  let combinedWord : Nat := toUnsignedShort (combinedWord + lowByte)
  let exponent : Int := toSignedChar ((combinedWord >>> 11 : Nat) : Int)
  if exponent > 0x0f then toSignedChar (Int.lor exponent 0xe0) else exponent

/-- The value of the local `mantissa` of `linear11ToFloat` when line 177 is
reached (lines 162-175). -/
def linear11Mantissa (highByte lowByte : Nat) : Int :=
  let combinedWord : Nat := toUnsignedShort highByte
  let combinedWord : Nat := toUnsignedShort (combinedWord <<< 8)
  let combinedWord : Nat := toUnsignedShort (combinedWord + lowByte)
  let mantissa : Int := toSignedShort ((combinedWord &&& 0x7ff : Nat) : Int)
  if mantissa > 0x03ff then toSignedShort (Int.lor mantissa 0xf800) else mantissa

/-! ## Totals and row contents -/

/-- The window total is the sum of the rails' accumulated powers. -/
def totalEqSum (t : MainState) : Prop :=
  t.totalPower = (t.rails.map fun x => x.average_power).sum

/-- The window total is the sum of the per-sample terms over the history. -/
def totalMatch (count : Nat) (t : MainState) : Prop :=
  t.totalPower
    = (t.samples.map fun x => x.voltage * x.current * 1000 / (count : ℚ)).sum

/-- The power column of a rail row, 0 for every other output. -/
def Output.rowPower : Output → ℚ
  | .row _ _ _ power => power
  | _ => 0

/-- The output `o` is the row of rail `r` as the state `t` has it: the rail's
name, the voltage of the rail's newest sample, which is the sample of the last
index `count - 1`, and the rail's two accumulators. -/
def rowMatches (count : Nat) (t : MainState) (r : Nat) (o : Output) : Prop :=
  ∃ rail x, t.rails[r]? = some rail ∧ (samplesOf r t.samples).getLast? = some x ∧
    x.k + 1 = count ∧
    o = Output.row rail.name x.voltage (rail.average_current * 1000) rail.average_power

/-- Invariant of the inner loop in pass `k` before rail `i`, on the contents of
the rows printed since the header. -/
def valsInner (count j : Nat) (out0 : List Output) (k i : Nat) (t : MainState) : Prop :=
  t.rails.length = j ∧
    ∃ rows, t.world.out = rows ++ Output.header :: out0 ∧
      if k + 1 = count then
        rows.length = i ∧ ∀ r, r < i → ∃ o, rows.reverse[r]? = some o ∧ rowMatches count t r o
      else rows = []

/-- Invariant of the outer loop before pass `n`, on the contents of the rows
printed since the header. -/
def valsOuter (count j : Nat) (out0 : List Output) (n : Nat) (t : MainState) : Prop :=
  t.rails.length = j ∧
    ∃ rows, t.world.out = rows ++ Output.header :: out0 ∧
      if 0 < n ∧ n = count then
        rows.length = j ∧ ∀ r, r < j → ∃ o, rows.reverse[r]? = some o ∧ rowMatches count t r o
      else rows = []

/-! ## The aggregate so far -/

/-- The aggregate so far (`totalPower`) after the rail pass of sample index `k`
in the window started from `s`. -/
def aggregateAfter (count : Nat) (bus : Bus) (s : MainState) (k : Nat) : ℚ :=
  (finalState (forLoop (samplePass count bus) (k + 1) (windowReset s))).totalPower

/-- No sample of the history has negative power. -/
def samplesNonneg (t : MainState) : Prop :=
  ∀ x ∈ t.samples, 0 ≤ x.voltage * x.current

/-! ## Single precision -/

/-- Rounding of a rational to the nearest integer, ties to the even one. -/
def roundNearestEven (x : ℚ) : Int :=
  let f : Int := ⌊x⌋
  let d : ℚ := x - (f : ℚ)
  if d < 1 / 2 then f
  else if 1 / 2 < d then f + 1
  else if f % 2 = 0 then f else f + 1

/-- Exponent of the unit in the last place of IEEE 754 binary32 at the
magnitude of `x`: 24 significant bits, and `-149` in the subnormal range. -/
def binary32Ulp (x : ℚ) : Int := max (Int.log 2 |x| - 23) (-149)

/-- The conversion of a value to `float` (IEEE 754 binary32, round to nearest,
ties to even): the value is rounded to a multiple of its unit in the last
place; `none` stands for a result that is not finite. -/
def toBinary32 (x : ℚ) : Option ℚ :=
  let y : ℚ := (roundNearestEven (x / (2 : ℚ) ^ binary32Ulp x) : ℚ) * (2 : ℚ) ^ binary32Ulp x
  if |y| < (2 : ℚ) ^ (128 : Int) then some y else none

/-- The number `x` is a finite binary32 value: an integer of magnitude below
`2^24` times a power of two of the binary32 exponent range. -/
def isBinary32 (x : ℚ) : Prop :=
  ∃ M E : Int, |M| < 2 ^ 24 ∧ -149 ≤ E ∧ E ≤ 104 ∧ x = (M : ℚ) * (2 : ℚ) ^ E

/-! ## Concrete runs with a window of two samples -/

/-- The state after the first window of two samples on `busRamp`. -/
def smallFirst : MainState := finalState (mainLoop 2 busRamp 1 initialState)

/-- The state after the second window of two samples on `busRamp`. -/
def smallSecond : MainState := finalState (window 2 busRamp smallFirst)

/-- The state after the first sample pass of the first window of two samples
on `busRamp`. -/
def smallPass : MainState := finalState (samplePass 2 busRamp 0 (windowReset initialState))

/-- Rail index 3 of the table after the first window of two samples on
`busRamp`. -/
def smallRail3 : voltage_rail :=
  smallFirst.rails.getD 3
    { name := "", device := 0, page := 0, average_current := 0, average_power := 0 }

/-- The state `smallFirst` with the accumulators, the total and the history
changed: what another earlier window could have left. -/
def smallFirstOther : MainState :=
  { smallFirst with rails := zc702_rails, totalPower := 7, samples := [] }

/-! ## Theorems -/

/-! ## Lemmas on the bit operations -/

theorem and_0x7ff (w : Nat) : w &&& 0x7ff = w % 2048 :=
  Nat.and_pow_two_sub_one_eq_mod w 11

theorem and_0xff (w : Nat) : w &&& 0xff = w % 256 :=
  Nat.and_pow_two_sub_one_eq_mod w 8

theorem shr_11 (w : Nat) : w >>> 11 = w / 2048 :=
  Nat.shiftRight_eq_div_pow w 11

theorem shr_8 (w : Nat) : w >>> 8 = w / 256 :=
  Nat.shiftRight_eq_div_pow w 8

theorem shl_8 (w : Nat) : w <<< 8 = w * 256 := by
  rw [Nat.shiftLeft_eq]

theorem shl_11 (w : Nat) : w <<< 11 = w * 2048 := by
  rw [Nat.shiftLeft_eq]

theorem or_0xe0 (r : Nat) (h : r < 32) : r ||| 0xe0 = r + 224 := by
  have key := Nat.mul_add_lt_is_or (show r < 2 ^ 5 from h) 7
  rw [Nat.lor_comm]
  have e : (0xe0 : Nat) = 2 ^ 5 * 7 := by norm_num
  rw [e, ← key]
  omega

theorem or_0xf800 (r : Nat) (h : r < 2048) : r ||| 0xf800 = r + 63488 := by
  have key := Nat.mul_add_lt_is_or (show r < 2 ^ 11 from h) 31
  rw [Nat.lor_comm]
  have e : (0xf800 : Nat) = 2 ^ 11 * 31 := by norm_num
  rw [e, ← key]
  omega

theorem int_lor_ofNat (a b : Nat) : Int.lor (a : Int) (b : Int) = ((a ||| b : Nat) : Int) :=
  rfl

/-- The exponent field after the sign extension of lines 166-172. -/
theorem exponent_signExtend (r : Nat) (h : r < 32) :
    (if toSignedChar (r : Int) > 0x0f
      then toSignedChar (Int.lor (toSignedChar (r : Int)) 0xe0)
      else toSignedChar (r : Int)) = signed5 r := by
  have h1 : toSignedChar (r : Int) = (r : Int) := by
    unfold toSignedChar; omega
  rw [h1]
  unfold signed5
  by_cases hr : r ≤ 15
  · have : ¬ ((r : Int) > 0x0f) := by omega
    rw [if_neg this, if_pos hr]
  · have : (r : Int) > 0x0f := by omega
    rw [if_pos this, if_neg hr]
    have e : Int.lor (r : Int) 0xe0 = ((r ||| 0xe0 : Nat) : Int) := int_lor_ofNat r 0xe0
    rw [e, or_0xe0 r h]
    unfold toSignedChar
    omega

/-- The mantissa field after the sign extension of lines 167-175. -/
theorem mantissa_signExtend (r : Nat) (h : r < 2048) :
    (if toSignedShort (r : Int) > 0x03ff
      then toSignedShort (Int.lor (toSignedShort (r : Int)) 0xf800)
      else toSignedShort (r : Int)) = signed11 r := by
  have h1 : toSignedShort (r : Int) = (r : Int) := by
    unfold toSignedShort; omega
  rw [h1]
  unfold signed11
  by_cases hr : r ≤ 1023
  · have : ¬ ((r : Int) > 0x03ff) := by omega
    rw [if_neg this, if_pos hr]
  · have : (r : Int) > 0x03ff := by omega
    rw [if_pos this, if_neg hr]
    have e : Int.lor (r : Int) 0xf800 = ((r ||| 0xf800 : Nat) : Int) :=
      int_lor_ofNat r 0xf800
    rw [e, or_0xf800 r h]
    unfold toSignedShort
    omega

/-- The word assembled by lines 162-164 from two bytes. -/
theorem combinedWord_eq (highByte lowByte : Nat) (hh : highByte < 256) (hl : lowByte < 256) :
    toUnsignedShort (toUnsignedShort (toUnsignedShort highByte <<< 8) + lowByte)
      = highByte * 256 + lowByte := by
  unfold toUnsignedShort
  rw [shl_8]
  omega

/-- Closed form of `linear11ToFloat` on bytes. -/
theorem linear11ToFloat_eq (highByte lowByte : Nat) (hh : highByte < 256) (hl : lowByte < 256) :
    linear11ToFloat highByte lowByte
      = (signed11 ((highByte * 256 + lowByte) % 2048) : ℚ)
          * (2 : ℚ) ^ signed5 ((highByte * 256 + lowByte) / 2048) := by
  unfold linear11ToFloat
  simp only [combinedWord_eq highByte lowByte hh hl, and_0x7ff, shr_11]
  rw [exponent_signExtend _ (by omega), mantissa_signExtend _ (Nat.mod_lt _ (by norm_num))]

/-- The word of `encodeLinear11` in arithmetic form. -/
theorem encodeLinear11_eq (e m : Int) :
    encodeLinear11 e m = (e % 32).toNat * 2048 + (m % 2048).toNat := by
  unfold encodeLinear11
  rw [shl_11]
  have hm : (m % 2048).toNat < 2 ^ 11 := by
    have := Int.emod_lt_of_pos m (show (0 : Int) < 2048 by norm_num)
    have := Int.emod_nonneg m (show (2048 : Int) ≠ 0 by norm_num)
    omega
  have key := Nat.mul_add_lt_is_or hm (e % 32).toNat
  rw [Nat.mul_comm _ 2048]
  exact key.symm

/-! ## LINEAR11 decoding -/

/-- C1: for every pair of bytes, `linear11ToFloat` returns `m * 2^e`, where `e`
is bits 15..11 and `m` is bits 10..0 of the word `highByte * 256 + lowByte`,
each read as a two's-complement integer. The function is a total function to
`ℚ`: it has no error result. -/
theorem linear11ToFloat_decodes (highByte lowByte : Nat)
    (hh : highByte < 256) (hl : lowByte < 256) :
    linear11ToFloat highByte lowByte
      = (signed11 (bitField (highByte * 256 + lowByte) 0 11) : ℚ)
          * (2 : ℚ) ^ signed5 (bitField (highByte * 256 + lowByte) 11 5) := by
  rw [linear11ToFloat_eq highByte lowByte hh hl]
  have h0 : bitField (highByte * 256 + lowByte) 0 11 = (highByte * 256 + lowByte) % 2048 := by
    unfold bitField; norm_num
  have h1 : bitField (highByte * 256 + lowByte) 11 5 = (highByte * 256 + lowByte) / 2048 := by
    unfold bitField; norm_num; omega
  rw [h0, h1]

/-- Witness of C1 at the bytes `0xF8, 0x02`. -/
theorem linear11ToFloat_decodes_witness :
    (0xF8 < 256 ∧ 0x02 < 256) ∧
      linear11ToFloat 0xF8 0x02
        = (signed11 (bitField (0xF8 * 256 + 0x02) 0 11) : ℚ)
            * (2 : ℚ) ^ signed5 (bitField (0xF8 * 256 + 0x02) 11 5) :=
  ⟨by decide, linear11ToFloat_decodes 0xF8 0x02 (by decide) (by decide)⟩

/-- C2: LINEAR11 round trip. For every exponent in `[-16, 15]` and mantissa in
`[-1024, 1023]`, the word `((e mod 32) << 11) | (m mod 2048)`, split into its
high and low byte, decodes to exactly `m * 2^e`. -/
theorem linear11_roundtrip (e m : Int)
    (he0 : -16 ≤ e) (he1 : e ≤ 15) (hm0 : -1024 ≤ m) (hm1 : m ≤ 1023) :
    linear11ToFloat (highByteOf (encodeLinear11 e m)) (lowByteOf (encodeLinear11 e m))
      = (m : ℚ) * (2 : ℚ) ^ e := by
  have hw := encodeLinear11_eq e m
  generalize encodeLinear11 e m = w at hw
  have hE : (e % 32).toNat < 32 := by omega
  have hM : (m % 2048).toNat < 2048 := by omega
  unfold highByteOf lowByteOf
  rw [and_0xff, and_0xff, shr_8]
  rw [linear11ToFloat_eq _ _ (Nat.mod_lt _ (by norm_num)) (Nat.mod_lt _ (by norm_num))]
  have hword : w / 256 % 256 * 256 + w % 256 = w := by omega
  rw [hword]
  have h1 : w % 2048 = (m % 2048).toNat := by omega
  have h2 : w / 2048 = (e % 32).toNat := by omega
  rw [h1, h2]
  have h3 : signed11 (m % 2048).toNat = m := by
    unfold signed11; split <;> omega
  have h4 : signed5 (e % 32).toNat = e := by
    unfold signed5; split <;> omega
  rw [h3, h4]

/-- Witness of C2 at exponent `-3` and mantissa `-5`. -/
theorem linear11_roundtrip_witness :
    ((-16 : Int) ≤ -3 ∧ (-3 : Int) ≤ 15 ∧ (-1024 : Int) ≤ -5 ∧ (-5 : Int) ≤ 1023) ∧
      linear11ToFloat (highByteOf (encodeLinear11 (-3) (-5)))
          (lowByteOf (encodeLinear11 (-3) (-5)))
        = ((-5 : Int) : ℚ) * (2 : ℚ) ^ (-3 : Int) :=
  ⟨by decide, linear11_roundtrip (-3) (-5) (by decide) (by decide) (by decide) (by decide)⟩

/-- C3: the known LINEAR11 vectors. The bytes `0x00, 0x00` decode to `0`; the
bytes `0x00, 0x01` (exponent bits `00000`, mantissa 1) decode to `1`; the bytes
`0xF8, 0x02` (exponent bits `11111`, mantissa 2) decode to `2 * 2^-1 = 1`. -/
theorem linear11ToFloat_known_vectors :
    linear11ToFloat 0x00 0x00 = 0 ∧
    linear11ToFloat 0x00 0x01 = 1 ∧
    linear11ToFloat 0xF8 0x02 = 2 * (2 : ℚ) ^ (-1 : Int) ∧
    linear11ToFloat 0xF8 0x02 = 1 := by
  decide!

/-! ## Voltage conversion -/

/-- C4: when the bus accepts the device and page selection and returns the raw
value `r` with `0 ≤ r ≤ 65535` for the voltage-out register, `readVoltage`
returns exactly `r / 4096`, and that value lies in `[0, 16)`. -/
theorem readVoltage_fixed_point (bus : Bus) (deviceAddress pageAddress : Nat) (w : World)
    (r : Int)
    (hsel : 0 ≤ bus (.setSlave 0x70 :: w.ops))
    (hpage : 0 ≤ bus (.writeByteData CMD_PAGE pageAddress :: .setSlave 0x70 :: w.ops))
    (hread : bus (.readWordData CMD_READ_VOUT :: .writeByteData CMD_PAGE pageAddress
                    :: .setSlave 0x70 :: w.ops) = r)
    (hr0 : 0 ≤ r) (hr1 : r ≤ 65535) :
    readVoltage bus deviceAddress pageAddress w
        = .ok ((r : ℚ) / 4096,
            { w with ops := .readWordData CMD_READ_VOUT
                              :: .writeByteData CMD_PAGE pageAddress
                              :: .setSlave 0x70 :: w.ops }) ∧
      0 ≤ (r : ℚ) / 4096 ∧ (r : ℚ) / 4096 < 16 := by
  refine ⟨?_, ?_, ?_⟩
  · simp only [readVoltage, World.call]
    rw [if_neg (not_lt.mpr hsel), if_neg (not_lt.mpr hpage), hread, if_neg (not_lt.mpr hr0)]
  · have : (0 : ℚ) ≤ (r : ℚ) := by exact_mod_cast hr0
    positivity
  · have : (r : ℚ) ≤ 65535 := by exact_mod_cast hr1
    rw [div_lt_iff₀ (by norm_num)]
    linarith

/-- Witness of C4 at the largest raw value, `0xFFFF`. -/
theorem readVoltage_fixed_point_witness :
    readVoltage busAllOnes 52 0 { ops := [], out := [] }
        = .ok (((65535 : Int) : ℚ) / 4096,
            { ops := [.readWordData CMD_READ_VOUT, .writeByteData CMD_PAGE 0, .setSlave 0x70],
              out := [] }) ∧
      0 ≤ ((65535 : Int) : ℚ) / 4096 ∧ ((65535 : Int) : ℚ) / 4096 < 16 :=
  readVoltage_fixed_point busAllOnes 52 0 { ops := [], out := [] } 65535
    (by decide) (by decide) (by decide) (by decide) (by decide)

/-! ## The read functions -/

theorem readVoltage_ok (bus : Bus) (d p : Nat) (w w1 : World) (v : ℚ)
    (h : readVoltage bus d p w = .ok (v, w1)) :
    w1.out = w.out ∧ (allAccepted bus w.ops = true → allAccepted bus w1.ops = true) := by
  simp only [readVoltage, World.call, World.print] at h
  split_ifs at h with h1 h2 h3
  simp only [Except.ok.injEq, Prod.mk.injEq] at h
  obtain ⟨-, rfl⟩ := h
  refine ⟨rfl, fun ha => ?_⟩
  simp only [allAccepted, Bool.and_eq_true, decide_eq_true_eq]
  exact ⟨not_lt.mp h3, not_lt.mp h2, not_lt.mp h1, ha⟩

theorem readVoltage_error (bus : Bus) (d p : Nat) (w w1 : World)
    (h : readVoltage bus d p w = .error w1) :
    (∃ msg, msg.isError = true ∧ w1.out = msg :: w.out) ∧
      (allAccepted bus w.ops = true → failedLast bus w1.ops = true) := by
  simp only [readVoltage, World.call, World.print] at h
  split_ifs at h with h1 h2 h3
  all_goals
    simp only [Except.error.injEq] at h
    subst h
    refine ⟨⟨_, ?_, rfl⟩, fun ha => ?_⟩
    · rfl
    simp only [failedLast, allAccepted, Bool.and_eq_true, decide_eq_true_eq]
  · exact ⟨h1, ha⟩
  · exact ⟨h2, not_lt.mp h1, ha⟩
  · exact ⟨h3, not_lt.mp h2, not_lt.mp h1, ha⟩

theorem readCurrent_ok (bus : Bus) (d p : Nat) (w w1 : World) (c : ℚ)
    (h : readCurrent bus d p w = .ok (c, w1)) :
    w1.out = w.out ∧ (allAccepted bus w.ops = true → allAccepted bus w1.ops = true) := by
  simp only [readCurrent, World.call, World.print] at h
  split_ifs at h with h1 h2 h3
  simp only [Except.ok.injEq, Prod.mk.injEq] at h
  obtain ⟨-, rfl⟩ := h
  refine ⟨rfl, fun ha => ?_⟩
  simp only [allAccepted, Bool.and_eq_true, decide_eq_true_eq]
  exact ⟨not_lt.mp h3, not_lt.mp h2, not_lt.mp h1, ha⟩

theorem readCurrent_error (bus : Bus) (d p : Nat) (w w1 : World)
    (h : readCurrent bus d p w = .error w1) :
    (∃ msg, msg.isError = true ∧ w1.out = msg :: w.out) ∧
      (allAccepted bus w.ops = true → failedLast bus w1.ops = true) := by
  simp only [readCurrent, World.call, World.print] at h
  split_ifs at h with h1 h2 h3
  all_goals
    simp only [Except.error.injEq] at h
    subst h
    refine ⟨⟨_, ?_, rfl⟩, fun ha => ?_⟩
    · rfl
    simp only [failedLast, allAccepted, Bool.and_eq_true, decide_eq_true_eq]
  · exact ⟨h1, ha⟩
  · exact ⟨h2, not_lt.mp h1, ha⟩
  · exact ⟨h3, not_lt.mp h2, not_lt.mp h1, ha⟩

/-- A successful step: what it read and what it changed. -/
theorem railStep_ok (count : Nat) (bus : Bus) (k i : Nat) (s s1 : MainState)
    (rail : voltage_rail) (hrail : s.rails[i]? = some rail)
    (h : railStep count bus k i s = .ok s1) :
    ∃ v c w1 w2, readVoltage bus rail.device rail.page s.world = .ok (v, w1) ∧
      readCurrent bus rail.device rail.page w1 = .ok (c, w2) ∧
      s1.rails = s.rails.set i (accumulate count rail v c) ∧
      s1.totalPower = s.totalPower + v * c * 1000 / (count : ℚ) ∧
      s1.maxpower = s.maxpower ∧
      s1.samples = { k := k, i := i, voltage := v, current := c } :: s.samples ∧
      s1.world.ops = w2.ops ∧
      s1.world.out =
        (if (k : Int) = (count : Int) - 1
         then Output.row rail.name v ((accumulate count rail v c).average_current * 1000)
                (accumulate count rail v c).average_power :: w2.out
         else w2.out) := by
  unfold railStep at h
  rw [hrail] at h
  simp only at h
  cases hv : readVoltage bus rail.device rail.page s.world with
  | error w => rw [hv] at h; simp at h
  | ok p =>
    obtain ⟨v, w1⟩ := p
    rw [hv] at h
    simp only at h
    cases hc : readCurrent bus rail.device rail.page w1 with
    | error w => rw [hc] at h; simp at h
    | ok q =>
      obtain ⟨c, w2⟩ := q
      rw [hc] at h
      simp only [Except.ok.injEq] at h
      subst h
      refine ⟨v, c, w1, w2, rfl, hc, rfl, rfl, rfl, rfl, ?_, ?_⟩
      · simp only [World.print]; split <;> rfl
      · simp only [World.print, accumulate]; split <;> rfl

/-- A failing step: the process state is untouched, only the world moved. -/
theorem railStep_error (count : Nat) (bus : Bus) (k i : Nat) (s e : MainState)
    (h : railStep count bus k i s = .error e) :
    e.rails = s.rails ∧ e.totalPower = s.totalPower ∧ e.maxpower = s.maxpower ∧
      e.samples = s.samples ∧
      (∃ msg, msg.isError = true ∧ e.world.out = msg :: s.world.out) ∧
      (allAccepted bus s.world.ops = true → failedLast bus e.world.ops = true) := by
  unfold railStep at h
  cases hrail : s.rails[i]? with
  | none => rw [hrail] at h; simp at h
  | some rail =>
    rw [hrail] at h
    simp only at h
    cases hv : readVoltage bus rail.device rail.page s.world with
    | error w =>
      rw [hv] at h
      simp only [Except.error.injEq] at h
      subst h
      have := readVoltage_error bus _ _ _ _ hv
      exact ⟨rfl, rfl, rfl, rfl, this.1, this.2⟩
    | ok p =>
      obtain ⟨v, w1⟩ := p
      rw [hv] at h
      simp only at h
      have hvo := readVoltage_ok bus _ _ _ _ _ hv
      cases hc : readCurrent bus rail.device rail.page w1 with
      | error w =>
        rw [hc] at h
        simp only [Except.error.injEq] at h
        subst h
        have := readCurrent_error bus _ _ _ _ hc
        refine ⟨rfl, rfl, rfl, rfl, ?_, fun ha => this.2 (hvo.2 ha)⟩
        obtain ⟨msg, hm, ho⟩ := this.1
        exact ⟨msg, hm, by rw [ho, hvo.1]⟩
      | ok q =>
        obtain ⟨c, w2⟩ := q
        rw [hc] at h
        simp at h

/-- A step whose two reads succeed returns, with the rail accumulated. -/
theorem railStep_of_reads (count : Nat) (bus : Bus) (k i : Nat) (s : MainState)
    (rail : voltage_rail) (v c : ℚ) (w1 w2 : World) (hrail : s.rails[i]? = some rail)
    (hv : readVoltage bus rail.device rail.page s.world = .ok (v, w1))
    (hc : readCurrent bus rail.device rail.page w1 = .ok (c, w2)) :
    ∃ s1, railStep count bus k i s = .ok s1 ∧
      s1.rails = s.rails.set i (accumulate count rail v c) ∧
      s1.samples = { k := k, i := i, voltage := v, current := c } :: s.samples := by
  unfold railStep
  rw [hrail]
  simp only
  rw [hv]
  simp only
  rw [hc]
  exact ⟨_, rfl, rfl, rfl⟩

/-! ## Loops -/

theorem forLoop_zero {σ : Type} (body : Nat → σ → Except σ σ) (s : σ) :
    forLoop body 0 s = .ok s := rfl

theorem forLoop_succ_ok {σ : Type} (body : Nat → σ → Except σ σ) (n : Nat) (s s1 : σ)
    (h : forLoop body n s = .ok s1) : forLoop body (n + 1) s = body n s1 := by
  rw [forLoop, h]

theorem forLoop_succ_error {σ : Type} (body : Nat → σ → Except σ σ) (n : Nat) (s e : σ)
    (h : forLoop body n s = .error e) : forLoop body (n + 1) s = .error e := by
  rw [forLoop, h]

/-- Once a loop has exited, more iterations change nothing. -/
theorem forLoop_error_mono {σ : Type} (body : Nat → σ → Except σ σ) (n m : Nat) (s e : σ)
    (hnm : n ≤ m) (h : forLoop body n s = .error e) : forLoop body m s = .error e := by
  induction m with
  | zero =>
    have : n = 0 := by omega
    subst this; exact h
  | succ m ih =>
    by_cases hn : n = m + 1
    · subst hn; exact h
    · exact forLoop_succ_error body m s e (ih (by omega))

/-- Invariant rule for the iterations that return. -/
theorem forLoop_ok_invariant {σ : Type} (body : Nat → σ → Except σ σ) (P : Nat → σ → Prop)
    (N : Nat) (s0 : σ) (h0 : P 0 s0)
    (hstep : ∀ n s s1, n < N → P n s → body n s = .ok s1 → P (n + 1) s1) :
    ∀ n, n ≤ N → ∀ s1, forLoop body n s0 = .ok s1 → P n s1 := by
  intro n
  induction n with
  | zero =>
    intro _ s1 h
    rw [forLoop_zero] at h
    simp only [Except.ok.injEq] at h
    subst h; exact h0
  | succ n ih =>
    intro hn s1 h
    cases hf : forLoop body n s0 with
    | error e => rw [forLoop_succ_error body n s0 e hf] at h; simp at h
    | ok s =>
      rw [forLoop_succ_ok body n s0 s hf] at h
      exact hstep n s s1 (by omega) (ih (by omega) s hf) h

/-- Invariant rule for the iteration that exits. -/
theorem forLoop_error_invariant {σ : Type} (body : Nat → σ → Except σ σ)
    (P : Nat → σ → Prop) (Q : σ → Prop) (N : Nat) (s0 : σ) (h0 : P 0 s0)
    (hstep : ∀ n s s1, n < N → P n s → body n s = .ok s1 → P (n + 1) s1)
    (herr : ∀ n s e, n < N → P n s → body n s = .error e → Q e) :
    ∀ n, n ≤ N → ∀ e, forLoop body n s0 = .error e → Q e := by
  intro n
  induction n with
  | zero =>
    intro _ e h
    rw [forLoop_zero] at h
    simp at h
  | succ n ih =>
    intro hn e h
    cases hf : forLoop body n s0 with
    | error e1 =>
      rw [forLoop_succ_error body n s0 e1 hf] at h
      simp only [Except.error.injEq] at h
      subst h
      exact ih (by omega) e1 hf
    | ok s =>
      rw [forLoop_succ_ok body n s0 s hf] at h
      exact herr n s e (by omega)
        (forLoop_ok_invariant body P N s0 h0 hstep n (by omega) s hf) h

/-- A reflexive, transitive relation kept by every iteration, whatever its
outcome, is kept by the loop. -/
theorem forLoop_rel {σ : Type} (body : Nat → σ → Except σ σ) (R : σ → σ → Prop)
    (hrefl : ∀ s, R s s) (htrans : ∀ a b c, R a b → R b c → R a c)
    (hbody : ∀ n s, R s (finalState (body n s))) :
    ∀ n s, R s (finalState (forLoop body n s)) := by
  intro n
  induction n with
  | zero => intro s; exact hrefl s
  | succ n ih =>
    intro s
    cases hf : forLoop body n s with
    | error e =>
      rw [forLoop_succ_error body n s e hf]
      have := ih s
      rw [hf] at this
      exact this
    | ok s1 =>
      rw [forLoop_succ_ok body n s s1 hf]
      have := ih s
      rw [hf] at this
      exact htrans _ _ _ this (hbody n s1)

/-! ## The sample history -/

theorem samplesOf_nil (r : Nat) : samplesOf r [] = [] := rfl

theorem samplesOf_cons_self (x : Sample) (xs : List Sample) :
    samplesOf x.i (x :: xs) = samplesOf x.i xs ++ [x] := by
  simp [samplesOf, List.filter_append]

theorem samplesOf_cons_ne (r : Nat) (x : Sample) (xs : List Sample) (h : x.i ≠ r) :
    samplesOf r (x :: xs) = samplesOf r xs := by
  simp [samplesOf, List.filter_append, h]

theorem sumsMatch_railStep (count : Nat) (bus : Bus) (k i : Nat) (s s1 : MainState)
    (hi : i < s.rails.length) (hs : sumsMatch count s)
    (h : railStep count bus k i s = .ok s1) : sumsMatch count s1 := by
  have hrail : s.rails[i]? = some s.rails[i] := List.getElem?_eq_getElem hi
  obtain ⟨v, c, w1, w2, -, -, hr, -, -, hsm, -, -⟩ :=
    railStep_ok count bus k i s s1 _ hrail h
  intro r rail1 hr1
  rw [hr, List.getElem?_set] at hr1
  rw [hsm]
  by_cases hir : i = r
  · subst hir
    rw [if_pos rfl, if_pos hi] at hr1
    simp only [Option.some.injEq] at hr1
    subst hr1
    have e := samplesOf_cons_self { k := k, i := i, voltage := v, current := c } s.samples
    simp only at e
    rw [e]
    obtain ⟨hp, hc⟩ := hs i _ hrail
    simp only [List.map_append, List.sum_append, List.map_cons, List.map_nil, List.sum_cons,
      List.sum_nil, add_zero, accumulate]
    rw [hp, hc]
    exact ⟨rfl, rfl⟩
  · rw [if_neg hir] at hr1
    rw [samplesOf_cons_ne r _ _ (by simpa using hir)]
    exact hs r rail1 hr1

theorem rails_length_railStep (count : Nat) (bus : Bus) (k i : Nat) (s s1 : MainState)
    (h : railStep count bus k i s = .ok s1) : s1.rails.length = s.rails.length := by
  cases hrail : s.rails[i]? with
  | none =>
    unfold railStep at h
    rw [hrail] at h
    simp only [Except.ok.injEq] at h
    subst h; rfl
  | some rail =>
    obtain ⟨v, c, w1, w2, -, -, hr, -⟩ := railStep_ok count bus k i s s1 rail hrail h
    rw [hr, List.length_set]

/-! ## Unfolding the pass and the window -/

theorem samplePass_ok (count : Nat) (bus : Bus) (k : Nat) (s s2 : MainState)
    (h : samplePass count bus k s = .ok s2) :
    ∃ s1, forLoop (railStep count bus k) s.rails.length s = .ok s1 ∧
      s2 = (if s1.maxpower < s1.totalPower then { s1 with maxpower := s1.totalPower } else s1) := by
  unfold samplePass at h
  cases hf : forLoop (railStep count bus k) s.rails.length s with
  | error e => rw [hf] at h; simp at h
  | ok s1 =>
    rw [hf] at h
    simp only [Except.ok.injEq] at h
    exact ⟨s1, rfl, h.symm⟩

theorem samplePass_error (count : Nat) (bus : Bus) (k : Nat) (s e : MainState)
    (h : samplePass count bus k s = .error e) :
    forLoop (railStep count bus k) s.rails.length s = .error e := by
  unfold samplePass at h
  cases hf : forLoop (railStep count bus k) s.rails.length s with
  | error e1 => rw [hf] at h; simpa using h
  | ok s1 => rw [hf] at h; simp at h

theorem window_ok (count : Nat) (bus : Bus) (s s2 : MainState)
    (h : window count bus s = .ok s2) :
    ∃ s1, forLoop (samplePass count bus) count (windowReset s) = .ok s1 ∧
      s2 = { s1 with world := s1.world.print (.footer s1.totalPower s1.maxpower) } := by
  unfold window at h
  cases hf : forLoop (samplePass count bus) count (windowReset s) with
  | error e => rw [hf] at h; simp at h
  | ok s1 =>
    rw [hf] at h
    simp only [Except.ok.injEq] at h
    exact ⟨s1, rfl, h.symm⟩

theorem window_error (count : Nat) (bus : Bus) (s e : MainState)
    (h : window count bus s = .error e) :
    forLoop (samplePass count bus) count (windowReset s) = .error e := by
  unfold window at h
  cases hf : forLoop (samplePass count bus) count (windowReset s) with
  | error e1 => rw [hf] at h; simpa using h
  | ok s1 => rw [hf] at h; simp at h

theorem innerInv_railStep (count : Nat) (bus : Bus) (j k i : Nat) (s s1 : MainState)
    (hi : i < j) (hs : innerInv count j k i s)
    (h : railStep count bus k i s = .ok s1) : innerInv count j k (i + 1) s1 := by
  obtain ⟨hlen, hsum, hks⟩ := hs
  have hi1 : i < s.rails.length := by omega
  have hrail : s.rails[i]? = some s.rails[i] := List.getElem?_eq_getElem hi1
  obtain ⟨v, c, w1, w2, -, -, -, -, -, hsm, -, -⟩ :=
    railStep_ok count bus k i s s1 _ hrail h
  refine ⟨by rw [rails_length_railStep count bus k i s s1 h, hlen],
    sumsMatch_railStep count bus k i s s1 hi1 hsum h, ?_⟩
  intro r hr
  rw [hsm]
  by_cases hir : i = r
  · subst hir
    have e := samplesOf_cons_self { k := k, i := i, voltage := v, current := c } s.samples
    simp only at e
    rw [e, List.map_append, hks i hr, if_neg (lt_irrefl i), if_pos (Nat.lt_succ_self i)]
    simp [List.range_succ]
  · rw [samplesOf_cons_ne r _ _ (by simpa using hir), hks r hr]
    by_cases hlt : r < i
    · rw [if_pos hlt, if_pos (by omega)]
    · rw [if_neg hlt, if_neg (by omega)]

theorem outerInv_samplePass (count : Nat) (bus : Bus) (j n : Nat) (s s2 : MainState)
    (hs : outerInv count j n s)
    (h : samplePass count bus n s = .ok s2) : outerInv count j (n + 1) s2 := by
  obtain ⟨s1, hf, rfl⟩ := samplePass_ok count bus n s s2 h
  have hlen : s.rails.length = j := hs.1
  have h0 : innerInv count j n 0 s := by
    refine ⟨hs.1, hs.2.1, fun r hr => ?_⟩
    rw [hs.2.2 r hr, if_neg (Nat.not_lt_zero r)]
  have hj := forLoop_ok_invariant (railStep count bus n) (innerInv count j n) j s h0
    (fun i t t1 hi ht hst => innerInv_railStep count bus j n i t t1 hi ht hst)
    j (le_refl j) s1 (by rw [← hlen]; exact hf)
  obtain ⟨h1, h2, h3⟩ := hj
  have key : outerInv count j (n + 1) s1 := by
    refine ⟨h1, h2, fun r hr => ?_⟩
    rw [h3 r hr, if_pos hr]
  split
  · exact key
  · exact key

theorem outerInv_windowReset (count : Nat) (s : MainState) :
    outerInv count s.rails.length 0 (windowReset s) := by
  refine ⟨by simp [windowReset], ?_, fun r _ => by simp [windowReset, samplesOf]⟩
  intro r rail hr
  simp only [windowReset, List.getElem?_map, Option.map_eq_some'] at hr
  obtain ⟨a, -, rfl⟩ := hr
  simp [windowReset, samplesOf]

/-- After a window that returns, every rail holds the sums of its `count`
samples. -/
theorem window_sums (count : Nat) (bus : Bus) (s s2 : MainState)
    (h : window count bus s = .ok s2) : outerInv count s.rails.length count s2 := by
  obtain ⟨s1, hf, rfl⟩ := window_ok count bus s s2 h
  exact forLoop_ok_invariant (samplePass count bus) (outerInv count s.rails.length) count
    (windowReset s) (outerInv_windowReset count s)
    (fun n t t1 _ ht hst => outerInv_samplePass count bus s.rails.length n t t1 ht hst)
    count (le_refl count) s1 hf

/-! ## Averaging -/

/-- C7: accumulation formula. After a window that returns, the samples read
for rail `r` are one per sample index `0 .. count - 1`, the rail's
`average_power` is the sum over them of `voltage * current * 1000 / count` and
its `average_current` is the sum of `current / count`. Each single step whose
reads return `voltage` and `current` returns and adds exactly
`voltage * current * 1000 / count` to the `average_power` and `current / count`
to the `average_current` of its rail, leaving the other rails as they were. -/
theorem accumulation_formula (count : Nat) (bus : Bus) (s s2 : MainState) (r : Nat)
    (rail : voltage_rail) (k i : Nat) (t : MainState) (railI : voltage_rail)
    (voltage current : ℚ) (w1 w2 : World)
    (hw : window count bus s = .ok s2) (hr : s2.rails[r]? = some rail)
    (hi : t.rails[i]? = some railI)
    (hv : readVoltage bus railI.device railI.page t.world = .ok (voltage, w1))
    (hc : readCurrent bus railI.device railI.page w1 = .ok (current, w2)) :
    ((samplesOf r s2.samples).map (fun x => x.k) = List.range count ∧
      rail.average_power
        = ((samplesOf r s2.samples).map
            fun x => x.voltage * x.current * 1000 / (count : ℚ)).sum ∧
      rail.average_current
        = ((samplesOf r s2.samples).map fun x => x.current / (count : ℚ)).sum) ∧
    ∃ t1, railStep count bus k i t = .ok t1 ∧
      t1.rails[i]? = some
        { railI with
          average_current := railI.average_current + current / (count : ℚ)
          average_power := railI.average_power + voltage * current * 1000 / (count : ℚ) } ∧
      ∀ r1, r1 ≠ i → t1.rails[r1]? = t.rails[r1]? := by
  constructor
  · obtain ⟨hlen, hsum, hks⟩ := window_sums count bus s s2 hw
    have hrlt : r < s.rails.length := by
      rw [← hlen]
      by_contra hcon
      rw [List.getElem?_eq_none (by omega)] at hr
      simp at hr
    exact ⟨hks r hrlt, hsum r rail hr⟩
  · obtain ⟨t1, h1, h2, -⟩ :=
      railStep_of_reads count bus k i t railI voltage current w1 w2 hi hv hc
    refine ⟨t1, h1, ?_, fun r1 hne => ?_⟩
    · have hlt : i < t.rails.length := by
        by_contra hcon
        rw [List.getElem?_eq_none (by omega)] at hi
        simp at hi
      rw [h2, List.getElem?_set, if_pos rfl, if_pos hlt]
      rfl
    · rw [h2, List.getElem?_set, if_neg (Ne.symm hne)]

/-- C5: averaging correctness. For every window size `count > 0`, if every
sample read for rail `r` in a window that returns is `(v, i)`, the rail's
`average_power` after the window is `v * i * 1000` and its `average_current`
is `i`. -/
theorem averaging_identical_samples (count : Nat) (bus : Bus) (s s2 : MainState) (r : Nat)
    (rail : voltage_rail) (v i : ℚ) (hcount : 0 < count)
    (hw : window count bus s = .ok s2) (hr : s2.rails[r]? = some rail)
    (hs : ∀ x ∈ samplesOf r s2.samples, x.voltage = v ∧ x.current = i) :
    rail.average_power = v * i * 1000 ∧ rail.average_current = i := by
  obtain ⟨hlen, hsum, hks⟩ := window_sums count bus s s2 hw
  have hrlt : r < s.rails.length := by
    rw [← hlen]
    by_contra hcon
    rw [List.getElem?_eq_none (by omega)] at hr
    simp at hr
  have hL : (samplesOf r s2.samples).length = count := by
    have := congrArg List.length (hks r hrlt)
    simpa using this
  obtain ⟨hp, hc⟩ := hsum r rail hr
  have hne : (count : ℚ) ≠ 0 := by exact_mod_cast hcount.ne'
  have e1 : (samplesOf r s2.samples).map
      (fun x => x.voltage * x.current * 1000 / (count : ℚ))
      = List.replicate count (v * i * 1000 / (count : ℚ)) := by
    rw [List.eq_replicate_iff]
    refine ⟨by simpa using hL, fun b hb => ?_⟩
    obtain ⟨x, hx, rfl⟩ := List.mem_map.mp hb
    obtain ⟨h1, h2⟩ := hs x hx
    rw [h1, h2]
  have e2 : (samplesOf r s2.samples).map (fun x => x.current / (count : ℚ))
      = List.replicate count (i / (count : ℚ)) := by
    rw [List.eq_replicate_iff]
    refine ⟨by simpa using hL, fun b hb => ?_⟩
    obtain ⟨x, hx, rfl⟩ := List.mem_map.mp hb
    rw [(hs x hx).2]
  rw [hp, hc, e1, e2, List.sum_replicate, List.sum_replicate, nsmul_eq_mul, nsmul_eq_mul]
  constructor <;> field_simp

/-- C6: partial-sample independence. For every window size `count > 0`, if the
samples of rail `r` at the indices before `count - 1` are all zero volts and
zero amperes and the sample at index `count - 1` is `(v, i)`, the rail's
`average_power` after the window is `v * i * 1000 / count` and its
`average_current` is `i / count`: the divisor is `count`; for `count > 1` and
`v * i ≠ 0` the power is not `v * i * 1000`. -/
theorem partial_sample_divisor (count : Nat) (bus : Bus) (s s2 : MainState) (r : Nat)
    (rail : voltage_rail) (v i : ℚ) (hcount : 0 < count)
    (hw : window count bus s = .ok s2) (hr : s2.rails[r]? = some rail)
    (hs : ∀ x ∈ samplesOf r s2.samples,
      (x.k < count - 1 → x.voltage = 0 ∧ x.current = 0) ∧
      (x.k = count - 1 → x.voltage = v ∧ x.current = i)) :
    rail.average_power = v * i * 1000 / (count : ℚ) ∧
      rail.average_current = i / (count : ℚ) ∧
      (1 < count → v * i ≠ 0 → rail.average_power ≠ v * i * 1000) := by
  obtain ⟨hlen, hsum, hks⟩ := window_sums count bus s s2 hw
  have hrlt : r < s.rails.length := by
    rw [← hlen]
    by_contra hcon
    rw [List.getElem?_eq_none (by omega)] at hr
    simp at hr
  obtain ⟨n, rfl⟩ : ∃ n, count = n + 1 := ⟨count - 1, by omega⟩
  have hk := hks r hrlt
  rw [List.range_succ, List.map_eq_append_iff] at hk
  obtain ⟨l1, l2, hl, hk1, hk2⟩ := hk
  obtain ⟨y, rfl, hy⟩ : ∃ y, l2 = [y] ∧ y.k = n := by
    cases l2 with
    | nil => simp at hk2
    | cons y l3 =>
      cases l3 with
      | nil => exact ⟨y, rfl, by simpa using hk2⟩
      | cons z l4 => simp at hk2
  have hmem1 : ∀ x ∈ l1, x.voltage = 0 ∧ x.current = 0 := by
    intro x hx
    have hxk : x.k ∈ List.range n := by
      rw [← hk1]
      exact List.mem_map.mpr ⟨x, hx, rfl⟩
    have hxlt : x.k < n := List.mem_range.mp hxk
    exact (hs x (by rw [hl]; exact List.mem_append_left _ hx)).1 (by omega)
  have hylast := (hs y (by rw [hl]; simp)).2 (by omega)
  obtain ⟨hp, hc⟩ := hsum r rail hr
  have z1 : (l1.map fun x => x.voltage * x.current * 1000 / ((n + 1 : Nat) : ℚ)).sum = 0 := by
    apply List.sum_eq_zero
    intro b hb
    obtain ⟨x, hx, rfl⟩ := List.mem_map.mp hb
    rw [(hmem1 x hx).1]
    simp
  have z2 : (l1.map fun x => x.current / ((n + 1 : Nat) : ℚ)).sum = 0 := by
    apply List.sum_eq_zero
    intro b hb
    obtain ⟨x, hx, rfl⟩ := List.mem_map.mp hb
    rw [(hmem1 x hx).2]
    simp
  have hpow : rail.average_power = v * i * 1000 / ((n + 1 : Nat) : ℚ) := by
    rw [hp, hl, List.map_append, List.sum_append, z1]
    simp [hylast.1, hylast.2]
  refine ⟨hpow, ?_, ?_⟩
  · rw [hc, hl, List.map_append, List.sum_append, z2]
    simp [hylast.2]
  · intro h1 hvi heq
    rw [hpow] at heq
    have hn : (1 : ℚ) < ((n + 1 : Nat) : ℚ) := by exact_mod_cast h1
    have hpos : (0 : ℚ) < ((n + 1 : Nat) : ℚ) := by linarith
    rw [div_eq_iff hpos.ne'] at heq
    have : v * i * 1000 * (((n + 1 : Nat) : ℚ) - 1) = 0 := by linarith
    rcases mul_eq_zero.mp this with h | h
    · have : v * i = 0 := by
        rcases mul_eq_zero.mp h with h2 | h2
        · exact h2
        · norm_num at h2
      exact hvi this
    · linarith

/-! ## The peak -/

theorem railStep_maxpower (count : Nat) (bus : Bus) (k i : Nat) (s : MainState) :
    (finalState (railStep count bus k i s)).maxpower = s.maxpower := by
  cases h : railStep count bus k i s with
  | error e => exact (railStep_error count bus k i s e h).2.2.1
  | ok s1 =>
    cases hrail : s.rails[i]? with
    | none =>
      unfold railStep at h
      rw [hrail] at h
      simp only [Except.ok.injEq] at h
      subst h; rfl
    | some rail =>
      obtain ⟨v, c, w1, w2, -, -, -, -, hm, -⟩ := railStep_ok count bus k i s s1 rail hrail h
      exact hm

theorem samplePass_maxpower (count : Nat) (bus : Bus) (k : Nat) (s : MainState) :
    s.maxpower ≤ (finalState (samplePass count bus k s)).maxpower := by
  have key := forLoop_rel (railStep count bus k) (fun a b => a.maxpower ≤ b.maxpower)
    (fun _ => le_refl _) (fun _ _ _ h1 h2 => le_trans h1 h2)
    (fun i t => le_of_eq (railStep_maxpower count bus k i t).symm) s.rails.length s
  unfold samplePass
  cases hf : forLoop (railStep count bus k) s.rails.length s with
  | error e => rw [hf] at key; exact key
  | ok s1 =>
    rw [hf] at key
    simp only [finalState] at key ⊢
    split
    · rename_i hlt
      exact le_trans key (le_of_lt hlt)
    · exact key

theorem window_maxpower (count : Nat) (bus : Bus) (s : MainState) :
    s.maxpower ≤ (finalState (window count bus s)).maxpower := by
  have key := forLoop_rel (samplePass count bus) (fun a b => a.maxpower ≤ b.maxpower)
    (fun _ => le_refl _) (fun _ _ _ h1 h2 => le_trans h1 h2)
    (fun k t => samplePass_maxpower count bus k t) count (windowReset s)
  unfold window
  cases hf : forLoop (samplePass count bus) count (windowReset s) with
  | error e => rw [hf] at key; exact key
  | ok s1 => rw [hf] at key; exact key

theorem mainLoop_maxpower_succ (count : Nat) (bus : Bus) (n : Nat) (s : MainState) :
    (finalState (mainLoop count bus n s)).maxpower
      ≤ (finalState (mainLoop count bus (n + 1) s)).maxpower := by
  unfold mainLoop
  cases hf : forLoop (fun _ => window count bus) n s with
  | error e => rw [forLoop_succ_error _ n s e hf]
  | ok s1 =>
    rw [forLoop_succ_ok _ n s s1 hf]
    exact window_maxpower count bus s1

theorem mainLoop_maxpower (count : Nat) (bus : Bus) (n d : Nat) (s : MainState) :
    (finalState (mainLoop count bus n s)).maxpower
      ≤ (finalState (mainLoop count bus (n + d) s)).maxpower := by
  induction d with
  | zero => exact le_refl _
  | succ d ih => exact le_trans ih (mainLoop_maxpower_succ count bus (n + d) s)

/-- C8: peak monotonicity. For every bus behaviour (negative readings and
failures included) and every window size, `maxpower` never decreases: it is at
least its previous value after every sample pass, after every window, and
from any number of windows of the main loop to any larger number, whether the
run continues or exits. -/
theorem maxpower_monotone (count : Nat) (bus : Bus) :
    (∀ k s, s.maxpower ≤ (finalState (samplePass count bus k s)).maxpower) ∧
    (∀ s, s.maxpower ≤ (finalState (window count bus s)).maxpower) ∧
    (∀ n d s,
      (finalState (mainLoop count bus n s)).maxpower
        ≤ (finalState (mainLoop count bus (n + d) s)).maxpower) ∧
    (∀ iic_fd n d,
      (finalState (main iic_fd bus n)).maxpower
        ≤ (finalState (main iic_fd bus (n + d))).maxpower) := by
  refine ⟨samplePass_maxpower count bus, window_maxpower count bus,
    fun n d s => mainLoop_maxpower count bus n d s, fun iic_fd n d => ?_⟩
  unfold main
  split
  · exact le_refl _
  · exact mainLoop_maxpower 50 bus n d initialState

/-! ## Bus failures -/

theorem railStep_accepted (count : Nat) (bus : Bus) (k i : Nat) (s s1 : MainState)
    (ha : allAccepted bus s.world.ops = true)
    (h : railStep count bus k i s = .ok s1) : allAccepted bus s1.world.ops = true := by
  cases hrail : s.rails[i]? with
  | none =>
    unfold railStep at h
    rw [hrail] at h
    simp only [Except.ok.injEq] at h
    subst h; exact ha
  | some rail =>
    obtain ⟨v, c, w1, w2, hv, hc, -, -, -, -, hops, -⟩ :=
      railStep_ok count bus k i s s1 rail hrail h
    rw [hops]
    exact (readCurrent_ok bus _ _ _ _ _ hc).2 ((readVoltage_ok bus _ _ _ _ _ hv).2 ha)

theorem railStep_aborted (count : Nat) (bus : Bus) (k i : Nat) (s e : MainState)
    (ha : allAccepted bus s.world.ops = true)
    (h : railStep count bus k i s = .error e) : abortedAtFailure bus e := by
  obtain ⟨-, -, -, -, ⟨msg, hm, ho⟩, hf⟩ := railStep_error count bus k i s e h
  exact ⟨hf ha, msg, _, ho, hm⟩

theorem samplePass_accepted (count : Nat) (bus : Bus) (k : Nat) (s s2 : MainState)
    (ha : allAccepted bus s.world.ops = true)
    (h : samplePass count bus k s = .ok s2) : allAccepted bus s2.world.ops = true := by
  obtain ⟨s1, hf, rfl⟩ := samplePass_ok count bus k s s2 h
  have key := forLoop_ok_invariant (railStep count bus k)
    (fun _ t => allAccepted bus t.world.ops = true) s.rails.length s ha
    (fun i t t1 _ ht hst => railStep_accepted count bus k i t t1 ht hst)
    s.rails.length (le_refl _) s1 hf
  split
  · exact key
  · exact key

theorem samplePass_aborted (count : Nat) (bus : Bus) (k : Nat) (s e : MainState)
    (ha : allAccepted bus s.world.ops = true)
    (h : samplePass count bus k s = .error e) : abortedAtFailure bus e :=
  forLoop_error_invariant (railStep count bus k)
    (fun _ t => allAccepted bus t.world.ops = true) (abortedAtFailure bus) s.rails.length s ha
    (fun i t t1 _ ht hst => railStep_accepted count bus k i t t1 ht hst)
    (fun i t e1 _ ht hst => railStep_aborted count bus k i t e1 ht hst)
    s.rails.length (le_refl _) e (samplePass_error count bus k s e h)

theorem window_accepted (count : Nat) (bus : Bus) (s s2 : MainState)
    (ha : allAccepted bus s.world.ops = true)
    (h : window count bus s = .ok s2) : allAccepted bus s2.world.ops = true := by
  obtain ⟨s1, hf, rfl⟩ := window_ok count bus s s2 h
  exact forLoop_ok_invariant (samplePass count bus)
    (fun _ t => allAccepted bus t.world.ops = true) count (windowReset s) ha
    (fun k t t1 _ ht hst => samplePass_accepted count bus k t t1 ht hst)
    count (le_refl _) s1 hf

theorem window_aborted (count : Nat) (bus : Bus) (s e : MainState)
    (ha : allAccepted bus s.world.ops = true)
    (h : window count bus s = .error e) : abortedAtFailure bus e :=
  forLoop_error_invariant (samplePass count bus)
    (fun _ t => allAccepted bus t.world.ops = true) (abortedAtFailure bus) count
    (windowReset s) ha
    (fun k t t1 _ ht hst => samplePass_accepted count bus k t t1 ht hst)
    (fun k t e1 _ ht hst => samplePass_aborted count bus k t e1 ht hst)
    count (le_refl _) e (window_error count bus s e h)

/-- C9: fatal propagation. In a run of the main loop that starts with no failed
bus call behind it: if the run is still going after `n` windows, no bus call
has failed; if it has exited, the failed call is the newest call of the trace
(nothing was issued after it, neither for a later rail nor as a retry), every
earlier call had succeeded, the newest output is the `ERROR:` line, and the
run is in that same final state for every larger number of windows: no later
window is run. -/
theorem fatal_propagation (count : Nat) (bus : Bus) (n : Nat) (s : MainState)
    (hs : allAccepted bus s.world.ops = true) :
    (∀ s1, mainLoop count bus n s = .ok s1 → allAccepted bus s1.world.ops = true) ∧
    (∀ e, mainLoop count bus n s = .error e →
      failedLast bus e.world.ops = true ∧
      (∃ msg rest, e.world.out = msg :: rest ∧ msg.isError = true) ∧
      ∀ m, n ≤ m → mainLoop count bus m s = .error e) := by
  constructor
  · intro s1 h
    exact forLoop_ok_invariant (fun _ => window count bus)
      (fun _ t => allAccepted bus t.world.ops = true) n s hs
      (fun _ t t1 _ ht hst => window_accepted count bus t t1 ht hst)
      n (le_refl _) s1 h
  · intro e h
    have key := forLoop_error_invariant (fun _ => window count bus)
      (fun _ t => allAccepted bus t.world.ops = true) (abortedAtFailure bus) n s hs
      (fun _ t t1 _ ht hst => window_accepted count bus t t1 ht hst)
      (fun _ t e1 _ ht hst => window_aborted count bus t e1 ht hst)
      n (le_refl _) e h
    exact ⟨key.1, key.2, fun m hm => forLoop_error_mono _ n m s e hm h⟩

theorem rowsInner_railStep (count : Nat) (bus : Bus) (j : Nat) (names : List String)
    (out0 : List Output) (k i : Nat) (s s1 : MainState) (hi : i < j) (hj : names.length = j)
    (hs : rowsInner count j names out0 k i s)
    (h : railStep count bus k i s = .ok s1) : rowsInner count j names out0 k (i + 1) s1 := by
  obtain ⟨hnames, hlen, rows, hout, hrows⟩ := hs
  have hi1 : i < s.rails.length := by
    have := congrArg List.length hnames
    rw [List.length_map] at this
    omega
  have hrail : s.rails[i]? = some s.rails[i] := List.getElem?_eq_getElem hi1
  obtain ⟨v, c, w1, w2, hv, hc, hr, -, -, hsm, -, ho⟩ :=
    railStep_ok count bus k i s s1 _ hrail h
  have hw2 : w2.out = s.world.out := by
    rw [(readCurrent_ok bus _ _ _ _ _ hc).1, (readVoltage_ok bus _ _ _ _ _ hv).1]
  have hname : names[i]? = some s.rails[i].name := by
    rw [← hnames, List.getElem?_map, hrail]
    rfl
  refine ⟨?_, ?_, ?_⟩
  · rw [hr, List.map_set, hnames]
    apply List.ext_getElem?
    intro m
    rw [List.getElem?_set]
    by_cases him : i = m
    · subst him
      rw [if_pos rfl, if_pos (by omega), hname]
      rfl
    · rw [if_neg him]
  · rw [hsm, List.length_cons, hlen]
    omega
  · rw [ho, hw2, hout]
    by_cases hk : k + 1 = count
    · have hk1 : (k : Int) = (count : Int) - 1 := by omega
      rw [if_pos hk1]
      refine ⟨_ :: rows, rfl, ?_⟩
      rw [if_pos hk] at hrows
      rw [if_pos hk, List.reverse_cons, List.map_append, hrows, List.take_succ, hname]
      simp [Output.rowName?, accumulate]
    · have hk1 : ¬ (k : Int) = (count : Int) - 1 := by omega
      rw [if_neg hk1]
      refine ⟨rows, rfl, ?_⟩
      rw [if_neg hk] at hrows
      rw [if_neg hk, hrows]

theorem rowsInner_railStep_error (count : Nat) (bus : Bus) (j : Nat) (names : List String)
    (out0 : List Output) (k i : Nat) (s e : MainState) (hk : k < count) (hi : i < j)
    (hs : rowsInner count j names out0 k i s)
    (h : railStep count bus k i s = .error e) : abortedOutput count j names out0 e := by
  obtain ⟨-, hlen, rows, hout, hrows⟩ := hs
  obtain ⟨-, -, -, hsm, ⟨msg, hm, ho⟩, -⟩ := railStep_error count bus k i s e h
  exact ⟨k, i, msg, rows, hk, hi, by rw [hsm, hlen], hm, by rw [ho, hout], hrows⟩

theorem rowsOuter_to_inner (count j : Nat) (names : List String) (out0 : List Output)
    (n : Nat) (s : MainState) (hn : n < count) (hs : rowsOuter count j names out0 n s) :
    rowsInner count j names out0 n 0 s := by
  obtain ⟨hnames, hlen, rows, hout, hrows⟩ := hs
  refine ⟨hnames, by rw [hlen]; rfl, rows, hout, ?_⟩
  rw [if_neg (by omega)] at hrows
  rw [hrows]
  split <;> simp

theorem names_length_of_map (j : Nat) (names : List String) (s : MainState)
    (hnames : s.rails.map (fun x => x.name) = names) (hj : names.length = j) :
    s.rails.length = j := by
  have := congrArg List.length hnames
  rw [List.length_map] at this
  omega

theorem rowsOuter_samplePass (count : Nat) (bus : Bus) (j : Nat) (names : List String)
    (out0 : List Output) (n : Nat) (s s2 : MainState) (hn : n < count)
    (hj : names.length = j) (hs : rowsOuter count j names out0 n s)
    (h : samplePass count bus n s = .ok s2) : rowsOuter count j names out0 (n + 1) s2 := by
  obtain ⟨s1, hf, rfl⟩ := samplePass_ok count bus n s s2 h
  have hlenj : s.rails.length = j := names_length_of_map j names s hs.1 hj
  have hin := forLoop_ok_invariant (railStep count bus n) (rowsInner count j names out0 n) j s
    (rowsOuter_to_inner count j names out0 n s hn hs)
    (fun i t t1 hi ht hst => rowsInner_railStep count bus j names out0 n i t t1 hi hj ht hst)
    j (le_refl j) s1 (by rw [← hlenj]; exact hf)
  obtain ⟨hnames, hlen, rows, hout, hrows⟩ := hin
  have key : rowsOuter count j names out0 (n + 1) s1 := by
    refine ⟨hnames, by rw [hlen, Nat.succ_mul], rows, hout, ?_⟩
    rw [hrows]
    by_cases hk : n + 1 = count
    · rw [if_pos hk, if_pos ⟨Nat.succ_pos n, hk⟩, ← hj, List.take_length]
    · rw [if_neg hk, if_neg (fun hcon => hk hcon.2)]
  split
  · exact key
  · exact key

theorem rowsOuter_samplePass_error (count : Nat) (bus : Bus) (j : Nat) (names : List String)
    (out0 : List Output) (n : Nat) (s e : MainState) (hn : n < count)
    (hj : names.length = j) (hs : rowsOuter count j names out0 n s)
    (h : samplePass count bus n s = .error e) : abortedOutput count j names out0 e := by
  have hlenj : s.rails.length = j := names_length_of_map j names s hs.1 hj
  exact forLoop_error_invariant (railStep count bus n) (rowsInner count j names out0 n)
    (abortedOutput count j names out0) j s
    (rowsOuter_to_inner count j names out0 n s hn hs)
    (fun i t t1 hi ht hst => rowsInner_railStep count bus j names out0 n i t t1 hi hj ht hst)
    (fun i t e1 hi ht hst =>
      rowsInner_railStep_error count bus j names out0 n i t e1 hn hi ht hst)
    j (le_refl j) e (by rw [← hlenj]; exact samplePass_error count bus n s e h)

theorem rowsOuter_windowReset (count : Nat) (s : MainState) :
    rowsOuter count s.rails.length (s.rails.map fun x => x.name) s.world.out 0
      (windowReset s) := by
  refine ⟨by simp [windowReset, Function.comp_def], by simp [windowReset], [], rfl, ?_⟩
  simp

/-- C10 (as the code has it): when a window exits on a bus failure at sample
index `k`, rail index `r` (`k * railCount + r` steps were completed), what it
has printed after the header is: nothing if `k` is not the last sample index,
and the rows of the rails `0 .. r - 1`, in table order, if `k = count - 1`;
then the `ERROR:` line. The `TOTAL POWER` line of that window is not printed.
A window that returns has printed the header, one row per rail in table order
(for `count > 0`) and the total line. -/
theorem partial_report_shape (count : Nat) (bus : Bus) (s : MainState) :
    (∀ e, window count bus s = .error e →
      ∃ k r msg rows, k < count ∧ r < s.rails.length ∧
        e.samples.length = k * s.rails.length + r ∧ msg.isError = true ∧
        e.world.out = msg :: (rows ++ Output.header :: s.world.out) ∧
        rows.reverse.map Output.rowName?
          = if k + 1 = count then ((s.rails.map fun x => x.name).take r).map some else []) ∧
    (∀ s2, window count bus s = .ok s2 →
      ∃ rows, s2.world.out
          = Output.footer s2.totalPower s2.maxpower :: (rows ++ Output.header :: s.world.out) ∧
        rows.reverse.map Output.rowName?
          = if 0 < count then (s.rails.map fun x => x.name).map some else []) := by
  have hj : (s.rails.map fun x => x.name).length = s.rails.length := List.length_map _ _
  constructor
  · intro e h
    exact forLoop_error_invariant (samplePass count bus)
      (rowsOuter count s.rails.length (s.rails.map fun x => x.name) s.world.out)
      (abortedOutput count s.rails.length (s.rails.map fun x => x.name) s.world.out)
      count (windowReset s) (rowsOuter_windowReset count s)
      (fun n t t1 hn ht hst => rowsOuter_samplePass count bus _ _ _ n t t1 hn hj ht hst)
      (fun n t e1 hn ht hst => rowsOuter_samplePass_error count bus _ _ _ n t e1 hn hj ht hst)
      count (le_refl _) e (window_error count bus s e h)
  · intro s2 h
    obtain ⟨s1, hf, rfl⟩ := window_ok count bus s s2 h
    obtain ⟨-, -, rows, hout, hrows⟩ := forLoop_ok_invariant (samplePass count bus)
      (rowsOuter count s.rails.length (s.rails.map fun x => x.name) s.world.out)
      count (windowReset s) (rowsOuter_windowReset count s)
      (fun n t t1 hn ht hst => rowsOuter_samplePass count bus _ _ _ n t t1 hn hj ht hst)
      count (le_refl _) s1 hf
    refine ⟨rows, by simp [World.print, hout], ?_⟩
    rw [hrows]
    by_cases hc : 0 < count
    · rw [if_pos ⟨hc, rfl⟩, if_pos hc]
    · rw [if_neg (fun hcon => hc hcon.1), if_neg hc]

/-! ## Instances of the theorems on concrete buses -/

/-- Witness of C5: on `busSteady` every sample is 3 V, 1.5 A; after the window
of 50 samples the first rail reports 4500 mW and 1.5 A. -/
theorem averaging_identical_samples_witness :
    (0 < 50 ∧ window 50 busSteady initialState = .ok steadyFinal ∧
      steadyFinal.rails[0]? = some
        { name := "VccInt   ", device := 52, page := 0,
          average_current := 3 / 2, average_power := 4500 } ∧
      ∀ x ∈ samplesOf 0 steadyFinal.samples, x.voltage = 3 ∧ x.current = 3 / 2) ∧
    ((4500 : ℚ) = 3 * (3 / 2) * 1000 ∧ (3 / 2 : ℚ) = 3 / 2) := by
  have h0 : 0 < 50 := by decide
  have hw : window 50 busSteady initialState = .ok steadyFinal := by decide!
  have hr : steadyFinal.rails[0]? = some
      { name := "VccInt   ", device := 52, page := 0,
        average_current := 3 / 2, average_power := 4500 } := by decide!
  have hs : ∀ x ∈ samplesOf 0 steadyFinal.samples, x.voltage = 3 ∧ x.current = 3 / 2 := by
    decide!
  exact ⟨⟨h0, hw, hr, hs⟩,
    averaging_identical_samples 50 busSteady initialState steadyFinal 0 _ 3 (3 / 2) h0 hw hr hs⟩

/-- Witness of C6: on `busLastSampleOnly` the first 49 samples of every rail are
zero and the last is 3 V, 1.5 A; after the window the first rail reports
`4500 / 50 = 90` mW and `1.5 / 50` A. -/
theorem partial_sample_divisor_witness :
    (0 < 50 ∧ window 50 busLastSampleOnly initialState = .ok lastSampleFinal ∧
      lastSampleFinal.rails[0]? = some
        { name := "VccInt   ", device := 52, page := 0,
          average_current := 3 / 100, average_power := 90 } ∧
      ∀ x ∈ samplesOf 0 lastSampleFinal.samples,
        (x.k < 50 - 1 → x.voltage = 0 ∧ x.current = 0) ∧
        (x.k = 50 - 1 → x.voltage = 3 ∧ x.current = 3 / 2)) ∧
    ((90 : ℚ) = 3 * (3 / 2) * 1000 / ((50 : Nat) : ℚ) ∧
      (3 / 100 : ℚ) = 3 / 2 / ((50 : Nat) : ℚ) ∧
      (1 < 50 → (3 : ℚ) * (3 / 2) ≠ 0 → (90 : ℚ) ≠ 3 * (3 / 2) * 1000)) := by
  have h0 : 0 < 50 := by decide
  have hw : window 50 busLastSampleOnly initialState = .ok lastSampleFinal := by decide!
  have hr : lastSampleFinal.rails[0]? = some
      { name := "VccInt   ", device := 52, page := 0,
        average_current := 3 / 100, average_power := 90 } := by decide!
  have hs : ∀ x ∈ samplesOf 0 lastSampleFinal.samples,
      (x.k < 50 - 1 → x.voltage = 0 ∧ x.current = 0) ∧
      (x.k = 50 - 1 → x.voltage = 3 ∧ x.current = 3 / 2) := by
    decide!
  exact ⟨⟨h0, hw, hr, hs⟩,
    partial_sample_divisor 50 busLastSampleOnly initialState lastSampleFinal 0 _ 3 (3 / 2)
      h0 hw hr hs⟩

/-- Witness of C7: the window of 50 samples on `busRamp`, rail index 3, and the
first step of that window (sample 0, rail 0: it reads raw voltage 2 and raw
current word 5). -/
theorem accumulation_formula_witness :
    (window 50 busRamp initialState = .ok rampFinal ∧
      rampFinal.rails[3]? = some rampRail3) ∧
    ((samplesOf 3 rampFinal.samples).map (fun x => x.k) = List.range 50 ∧
      rampRail3.average_power
        = ((samplesOf 3 rampFinal.samples).map
            fun x => x.voltage * x.current * 1000 / ((50 : Nat) : ℚ)).sum ∧
      rampRail3.average_current
        = ((samplesOf 3 rampFinal.samples).map fun x => x.current / ((50 : Nat) : ℚ)).sum) ∧
    ∃ t1, railStep 50 busRamp 0 0 (windowReset initialState) = .ok t1 ∧
      t1.rails[0]? = some
        { name := "VccInt   ", device := 52, page := 0,
          average_current := 0 + 5 / ((50 : Nat) : ℚ)
          average_power := 0 + 2 / 4096 * 5 * 1000 / ((50 : Nat) : ℚ) } ∧
      ∀ r1, r1 ≠ 0 → t1.rails[r1]? = (windowReset initialState).rails[r1]? := by
  have hw : window 50 busRamp initialState = .ok rampFinal := by decide!
  have hr : rampFinal.rails[3]? = some rampRail3 := by decide!
  have hi : (windowReset initialState).rails[0]? = some
      { name := "VccInt   ", device := 52, page := 0,
        average_current := 0, average_power := 0 } := by decide!
  have hv : readVoltage busRamp 52 0 (windowReset initialState).world
      = .ok (2 / 4096,
          { ops := [.readWordData CMD_READ_VOUT, .writeByteData CMD_PAGE 0, .setSlave 0x70],
            out := [.header, .clearScreen] }) := by decide!
  have hc : readCurrent busRamp 52 0
        { ops := [.readWordData CMD_READ_VOUT, .writeByteData CMD_PAGE 0, .setSlave 0x70],
          out := [.header, .clearScreen] }
      = .ok (5,
          { ops := [.readWordData CMD_READ_IOUT, .writeByteData CMD_PAGE 0, .setSlave 0x70,
                    .readWordData CMD_READ_VOUT, .writeByteData CMD_PAGE 0, .setSlave 0x70],
            out := [.header, .clearScreen] }) := by decide!
  exact ⟨⟨hw, hr⟩,
    accumulation_formula 50 busRamp initialState rampFinal 3 _ 0 0 (windowReset initialState)
      _ (2 / 4096) 5 _ _ hw hr hi hv hc⟩

/-- Witness of C9, the scenario of the specification: the read for rail index 3
of 10 fails on sample index 5 of 50 (bus call 321). The run exits with that
call as the newest one; 53 steps were completed, so rail index 4 of sample 5
was never processed; nothing but the header and the `ERROR:` line was printed;
running the loop for more windows gives the same final state. -/
theorem fatal_propagation_witness :
    (allAccepted (busFailAt 321) initialState.world.ops = true ∧
      mainLoop 50 (busFailAt 321) 1 initialState = .error abortSample5Rail3) ∧
    (failedLast (busFailAt 321) abortSample5Rail3.world.ops = true ∧
      (∃ msg rest, abortSample5Rail3.world.out = msg :: rest ∧ msg.isError = true) ∧
      ∀ m, 1 ≤ m → mainLoop 50 (busFailAt 321) m initialState = .error abortSample5Rail3) ∧
    (abortSample5Rail3.world.ops.length = 6 * (5 * 10 + 3) + 3 ∧
      abortSample5Rail3.samples.length = 5 * 10 + 3 ∧
      abortSample5Rail3.world.out = [.errorVout 52 (-1), .header, .clearScreen] ∧
      main 3 (busFailAt 321) 7 = .error abortSample5Rail3) := by
  have hs : allAccepted (busFailAt 321) initialState.world.ops = true := by decide
  have he : mainLoop 50 (busFailAt 321) 1 initialState = .error abortSample5Rail3 := by
    decide!
  have key := (fatal_propagation 50 (busFailAt 321) 1 initialState hs).2 abortSample5Rail3 he
  refine ⟨⟨hs, he⟩, key, by decide!, by decide!, by decide!, ?_⟩
  exact key.2.2 7 (by decide)

/-- Counterexample to C10 as stated: the device selection for rail index 1
fails at the last sample index 49 of a 50-sample window (bus call 2947). The
window exits, and the row of rail index 0 of that window has been printed. -/
theorem no_partial_report_counterexample :
    window 50 (busFailAt 2947) initialState = .error abortSample49Rail1 ∧
      abortSample49Rail1.samples.length = 49 * 10 + 1 ∧
      abortSample49Rail1.world.out
        = [.errorSlave 52, .row "VccInt   " 0 0 0, .header, .clearScreen] ∧
      ∃ o ∈ abortSample49Rail1.world.out, o.rowName? = some "VccInt   " := by
  decide!

/-- Witness of the amended C10 on the run of the counterexample: failure at
sample index 49, rail index 1. -/
theorem partial_report_shape_witness :
    window 50 (busFailAt 2947) initialState = .error abortSample49Rail1 ∧
    ∃ k r msg rows, k < 50 ∧ r < initialState.rails.length ∧
      abortSample49Rail1.samples.length = k * initialState.rails.length + r ∧
      msg.isError = true ∧
      abortSample49Rail1.world.out
        = msg :: (rows ++ Output.header :: initialState.world.out) ∧
      rows.reverse.map Output.rowName?
        = if k + 1 = 50
          then ((initialState.rails.map fun x => x.name).take r).map some else [] := by
  have he : window 50 (busFailAt 2947) initialState = .error abortSample49Rail1 := by decide!
  exact ⟨he, (partial_report_shape 50 (busFailAt 2947) initialState).1 abortSample49Rail1 he⟩

/-! ## The read protocol -/

/-- A unary invariant kept by every iteration, whatever its outcome, is kept
by the loop. -/
theorem forLoop_pred {σ : Type} (body : Nat → σ → Except σ σ) (P : σ → Prop)
    (hbody : ∀ n s, P s → P (finalState (body n s))) :
    ∀ n s, P s → P (finalState (forLoop body n s)) := by
  intro n
  induction n with
  | zero => intro s hs; exact hs
  | succ n ih =>
    intro s hs
    cases hf : forLoop body n s with
    | error e =>
      rw [forLoop_succ_error body n s e hf]
      have := ih s hs
      rw [hf] at this
      exact this
    | ok s1 =>
      rw [forLoop_succ_ok body n s s1 hf]
      have := ih s hs
      rw [hf] at this
      exact hbody n s1 this

theorem readVoltage_ops (bus : Bus) (d p : Nat) (w w1 : World) (v : ℚ)
    (h : readVoltage bus d p w = .ok (v, w1)) :
    w1.ops = [.readWordData CMD_READ_VOUT, .writeByteData CMD_PAGE p, .setSlave 0x70] ++ w.ops := by
  simp only [readVoltage, World.call, World.print] at h
  split_ifs at h with h1 h2 h3
  simp only [Except.ok.injEq, Prod.mk.injEq] at h
  obtain ⟨-, rfl⟩ := h
  rfl

theorem readCurrent_ops (bus : Bus) (d p : Nat) (w w1 : World) (c : ℚ)
    (h : readCurrent bus d p w = .ok (c, w1)) :
    w1.ops = [.readWordData CMD_READ_IOUT, .writeByteData CMD_PAGE p, .setSlave 0x70] ++ w.ops := by
  simp only [readCurrent, World.call, World.print] at h
  split_ifs at h with h1 h2 h3
  simp only [Except.ok.injEq, Prod.mk.injEq] at h
  obtain ⟨-, rfl⟩ := h
  rfl

/-- The first call of `readVoltage` is the selection of address `0x70`. -/
theorem readVoltage_first_op (bus : Bus) (d p : Nat) (w : World) :
    ∃ later, (readWorld (readVoltage bus d p w)).ops = later ++ BusOp.setSlave 0x70 :: w.ops := by
  simp only [readVoltage, World.call, World.print]
  split_ifs
  · exact ⟨[], rfl⟩
  · exact ⟨[_], rfl⟩
  · exact ⟨[_, _], rfl⟩
  · exact ⟨[_, _], rfl⟩

/-- The first call of `readCurrent` is the selection of address `0x70`. -/
theorem readCurrent_first_op (bus : Bus) (d p : Nat) (w : World) :
    ∃ later, (readWorld (readCurrent bus d p w)).ops = later ++ BusOp.setSlave 0x70 :: w.ops := by
  simp only [readCurrent, World.call, World.print]
  split_ifs
  · exact ⟨[], rfl⟩
  · exact ⟨[_], rfl⟩
  · exact ⟨[_, _], rfl⟩
  · exact ⟨[_, _], rfl⟩

/-- The bus calls of `readVoltage` do not depend on `deviceAddress`. -/
theorem readVoltage_ops_any_device (bus : Bus) (d1 d2 p : Nat) (w : World) :
    (readWorld (readVoltage bus d1 p w)).ops = (readWorld (readVoltage bus d2 p w)).ops := by
  simp only [readVoltage, World.call, World.print]
  split_ifs <;> rfl

/-- The bus calls of `readCurrent` do not depend on `deviceAddress`. -/
theorem readCurrent_ops_any_device (bus : Bus) (d1 d2 p : Nat) (w : World) :
    (readWorld (readCurrent bus d1 p w)).ops = (readWorld (readCurrent bus d2 p w)).ops := by
  simp only [readCurrent, World.call, World.print]
  split_ifs <;> rfl

theorem readVoltage_protocol (bus : Bus) (d p : Nat) (w : World)
    (h : pageSelectBeforeRead w.ops = true) :
    pageSelectBeforeRead (readWorld (readVoltage bus d p w)).ops = true := by
  simp only [readVoltage, World.call, World.print]
  split_ifs <;> simp [readWorld, pageSelectBeforeRead, h]

theorem readCurrent_protocol (bus : Bus) (d p : Nat) (w : World)
    (h : pageSelectBeforeRead w.ops = true) :
    pageSelectBeforeRead (readWorld (readCurrent bus d p w)).ops = true := by
  simp only [readCurrent, World.call, World.print]
  split_ifs <;> simp [readWorld, pageSelectBeforeRead, h]

theorem railStep_protocol (count : Nat) (bus : Bus) (k i : Nat) (s : MainState)
    (h : pageSelectBeforeRead s.world.ops = true) :
    pageSelectBeforeRead (finalState (railStep count bus k i s)).world.ops = true := by
  unfold railStep
  cases hrail : s.rails[i]? with
  | none => exact h
  | some rail =>
    simp only
    have hv := readVoltage_protocol bus rail.device rail.page s.world h
    cases hrv : readVoltage bus rail.device rail.page s.world with
    | error w => rw [hrv] at hv; exact hv
    | ok q =>
      obtain ⟨v, w1⟩ := q
      rw [hrv] at hv
      simp only
      have hc := readCurrent_protocol bus rail.device rail.page w1 hv
      cases hrc : readCurrent bus rail.device rail.page w1 with
      | error w => rw [hrc] at hc; exact hc
      | ok q2 =>
        obtain ⟨c, w2⟩ := q2
        rw [hrc] at hc
        simp only [finalState, World.print]
        split <;> exact hc

theorem samplePass_protocol (count : Nat) (bus : Bus) (k : Nat) (s : MainState)
    (h : pageSelectBeforeRead s.world.ops = true) :
    pageSelectBeforeRead (finalState (samplePass count bus k s)).world.ops = true := by
  have key := forLoop_pred (railStep count bus k)
    (fun t => pageSelectBeforeRead t.world.ops = true)
    (fun i t ht => railStep_protocol count bus k i t ht) s.rails.length s h
  unfold samplePass
  cases hf : forLoop (railStep count bus k) s.rails.length s with
  | error e => rw [hf] at key; exact key
  | ok s1 =>
    rw [hf] at key
    simp only [finalState] at key ⊢
    split <;> exact key

theorem window_protocol (count : Nat) (bus : Bus) (s : MainState)
    (h : pageSelectBeforeRead s.world.ops = true) :
    pageSelectBeforeRead (finalState (window count bus s)).world.ops = true := by
  have key := forLoop_pred (samplePass count bus)
    (fun t => pageSelectBeforeRead t.world.ops = true)
    (fun k t ht => samplePass_protocol count bus k t ht) count (windowReset s) h
  unfold window
  cases hf : forLoop (samplePass count bus) count (windowReset s) with
  | error e => rw [hf] at key; exact key
  | ok s1 => rw [hf] at key; exact key

/-- C11 (what the code does): whatever `deviceAddress` is passed, the first bus
call of `readVoltage` and of `readCurrent` is the selection of the fixed
address `0x70`; the calls issued do not depend on `deviceAddress`; and `0x70`
is the `device` of no rail of `zc702_rails`. -/
theorem device_select_hard_coded (bus : Bus) (pageAddress : Nat) (w : World) :
    (∀ deviceAddress, ∃ later,
      (readWorld (readVoltage bus deviceAddress pageAddress w)).ops
        = later ++ BusOp.setSlave 0x70 :: w.ops) ∧
    (∀ deviceAddress, ∃ later,
      (readWorld (readCurrent bus deviceAddress pageAddress w)).ops
        = later ++ BusOp.setSlave 0x70 :: w.ops) ∧
    (∀ d1 d2,
      (readWorld (readVoltage bus d1 pageAddress w)).ops
        = (readWorld (readVoltage bus d2 pageAddress w)).ops ∧
      (readWorld (readCurrent bus d1 pageAddress w)).ops
        = (readWorld (readCurrent bus d2 pageAddress w)).ops) ∧
    (∀ rail ∈ zc702_rails, rail.device ≠ 0x70) ∧
    (readWorld (readVoltage busSteady 52 0 { ops := [], out := [] })).ops
      = [.readWordData CMD_READ_VOUT, .writeByteData CMD_PAGE 0, .setSlave 0x70] ∧
    (readWorld (readVoltage busSteady 53 0 { ops := [], out := [] })).ops
      = [.readWordData CMD_READ_VOUT, .writeByteData CMD_PAGE 0, .setSlave 0x70] := by
  refine ⟨fun d => readVoltage_first_op bus d pageAddress w,
    fun d => readCurrent_first_op bus d pageAddress w,
    fun d1 d2 => ⟨readVoltage_ops_any_device bus d1 d2 pageAddress w,
      readCurrent_ops_any_device bus d1 d2 pageAddress w⟩, by decide, by decide, by decide⟩

/-- C12: read protocol. A `readVoltage` that returns has issued exactly three
bus calls, in this order: device selection, write of the page to command code
`0x00`, 16-bit read of command code `0x8B`; a `readCurrent` that returns has
issued exactly: device selection, write of the page to command code `0x00`,
16-bit read of command code `0x8C`. In every run of the main loop, whether it
continues or exits, every register read comes directly after a page selection,
which comes directly after a device selection. -/
theorem read_protocol (bus : Bus) (deviceAddress pageAddress : Nat) (w w1 w2 w3 : World)
    (voltage current : ℚ)
    (hv : readVoltage bus deviceAddress pageAddress w = .ok (voltage, w1))
    (hc : readCurrent bus deviceAddress pageAddress w2 = .ok (current, w3)) :
    w1.ops = [.readWordData 0x8B, .writeByteData 0x00 pageAddress, .setSlave 0x70] ++ w.ops ∧
    w3.ops = [.readWordData 0x8C, .writeByteData 0x00 pageAddress, .setSlave 0x70] ++ w2.ops ∧
    w1.out = w.out ∧ w3.out = w2.out ∧
    ∀ count n s, pageSelectBeforeRead s.world.ops = true →
      pageSelectBeforeRead (finalState (mainLoop count bus n s)).world.ops = true := by
  refine ⟨readVoltage_ops bus _ _ _ _ _ hv, readCurrent_ops bus _ _ _ _ _ hc,
    (readVoltage_ok bus _ _ _ _ _ hv).1, (readCurrent_ok bus _ _ _ _ _ hc).1, ?_⟩
  intro count n s hs
  exact forLoop_pred (fun _ => window count bus)
    (fun t => pageSelectBeforeRead t.world.ops = true)
    (fun _ t ht => window_protocol count bus t ht) n s hs

/-- Witness of C12: the two reads of the first rail (device 52, page 0) on
`busSteady`. -/
theorem read_protocol_witness :
    (readVoltage busSteady 52 0 { ops := [], out := [] }
        = .ok (3, { ops := [.readWordData 0x8B, .writeByteData 0x00 0, .setSlave 0x70],
                    out := [] }) ∧
      readCurrent busSteady 52 0 { ops := [], out := [] }
        = .ok (3 / 2, { ops := [.readWordData 0x8C, .writeByteData 0x00 0, .setSlave 0x70],
                        out := [] })) ∧
    ([BusOp.readWordData 0x8B, .writeByteData 0x00 0, .setSlave 0x70]
        = [.readWordData 0x8B, .writeByteData 0x00 0, .setSlave 0x70] ++ [] ∧
      [BusOp.readWordData 0x8C, .writeByteData 0x00 0, .setSlave 0x70]
        = [.readWordData 0x8C, .writeByteData 0x00 0, .setSlave 0x70] ++ [] ∧
      ([] : List Output) = [] ∧ ([] : List Output) = [] ∧
      ∀ count n s, pageSelectBeforeRead s.world.ops = true →
        pageSelectBeforeRead (finalState (mainLoop count busSteady n s)).world.ops = true) := by
  have hv : readVoltage busSteady 52 0 { ops := [], out := [] }
      = .ok (3, { ops := [.readWordData 0x8B, .writeByteData 0x00 0, .setSlave 0x70],
                  out := [] }) := by decide!
  have hc : readCurrent busSteady 52 0 { ops := [], out := [] }
      = .ok (3 / 2, { ops := [.readWordData 0x8C, .writeByteData 0x00 0, .setSlave 0x70],
                      out := [] }) := by decide!
  exact ⟨⟨hv, hc⟩, read_protocol busSteady 52 0 _ _ _ _ 3 (3 / 2) hv hc⟩

/-! ## Rail order -/

theorem railStep_ident (count : Nat) (bus : Bus) (k i : Nat) (s : MainState) :
    (finalState (railStep count bus k i s)).rails.map railIdent = s.rails.map railIdent := by
  cases h : railStep count bus k i s with
  | error e => rw [show (finalState (Except.error e)) = e from rfl,
      (railStep_error count bus k i s e h).1]
  | ok s1 =>
    cases hrail : s.rails[i]? with
    | none =>
      unfold railStep at h
      rw [hrail] at h
      simp only [Except.ok.injEq] at h
      subst h; rfl
    | some rail =>
      obtain ⟨v, c, w1, w2, -, -, hr, -⟩ := railStep_ok count bus k i s s1 rail hrail h
      show s1.rails.map railIdent = s.rails.map railIdent
      rw [hr, List.map_set]
      apply List.ext_getElem?
      intro m
      rw [List.getElem?_set]
      by_cases him : i = m
      · subst him
        rw [if_pos rfl, List.getElem?_map, hrail]
        simp only [List.length_map, Option.map_some']
        have hlt : i < s.rails.length := by
          by_contra hcon
          rw [List.getElem?_eq_none (by omega)] at hrail
          simp at hrail
        rw [if_pos hlt]
        rfl
      · rw [if_neg him]

theorem samplePass_ident (count : Nat) (bus : Bus) (k : Nat) (s : MainState) :
    (finalState (samplePass count bus k s)).rails.map railIdent = s.rails.map railIdent := by
  have key := forLoop_rel (railStep count bus k)
    (fun a b => b.rails.map railIdent = a.rails.map railIdent)
    (fun _ => rfl) (fun _ _ _ h1 h2 => h2.trans h1)
    (fun i t => railStep_ident count bus k i t) s.rails.length s
  unfold samplePass
  cases hf : forLoop (railStep count bus k) s.rails.length s with
  | error e => rw [hf] at key; exact key
  | ok s1 =>
    rw [hf] at key
    simp only [finalState] at key ⊢
    split <;> exact key

theorem windowReset_ident (s : MainState) :
    (windowReset s).rails.map railIdent = s.rails.map railIdent := by
  simp [windowReset, railIdent, Function.comp_def]

theorem window_ident (count : Nat) (bus : Bus) (s : MainState) :
    (finalState (window count bus s)).rails.map railIdent = s.rails.map railIdent := by
  have key := forLoop_rel (samplePass count bus)
    (fun a b => b.rails.map railIdent = a.rails.map railIdent)
    (fun _ => rfl) (fun _ _ _ h1 h2 => h2.trans h1)
    (fun k t => samplePass_ident count bus k t) count (windowReset s)
  rw [windowReset_ident] at key
  unfold window
  cases hf : forLoop (samplePass count bus) count (windowReset s) with
  | error e => rw [hf] at key; exact key
  | ok s1 => rw [hf] at key; exact key

theorem mainLoop_ident (count : Nat) (bus : Bus) (n : Nat) (s : MainState) :
    (finalState (mainLoop count bus n s)).rails.map railIdent = s.rails.map railIdent :=
  forLoop_rel (fun _ => window count bus)
    (fun a b => b.rails.map railIdent = a.rails.map railIdent)
    (fun _ => rfl) (fun _ _ _ h1 h2 => h2.trans h1)
    (fun _ t => window_ident count bus t) n s

theorem names_of_ident (a b : List voltage_rail)
    (h : a.map railIdent = b.map railIdent) :
    a.map (fun x => x.name) = b.map (fun x => x.name) := by
  have := congrArg (List.map Prod.fst) h
  simpa [List.map_map, Function.comp_def, railIdent] using this

/-- The rows printed by a window that returns, by name. -/
theorem window_ok_rows (count : Nat) (bus : Bus) (s s2 : MainState)
    (h : window count bus s = .ok s2) :
    ∃ rows, s2.world.out
        = Output.footer s2.totalPower s2.maxpower :: (rows ++ Output.header :: s.world.out) ∧
      rows.reverse.map Output.rowName?
        = if 0 < count then (s.rails.map fun x => x.name).map some else [] := by
  have hj : (s.rails.map fun x => x.name).length = s.rails.length := List.length_map _ _
  obtain ⟨s1, hf, rfl⟩ := window_ok count bus s s2 h
  obtain ⟨-, -, rows, hout, hrows⟩ := forLoop_ok_invariant (samplePass count bus)
    (rowsOuter count s.rails.length (s.rails.map fun x => x.name) s.world.out)
    count (windowReset s) (rowsOuter_windowReset count s)
    (fun n t t1 hn ht hst => rowsOuter_samplePass count bus _ _ _ n t t1 hn hj ht hst)
    count (le_refl _) s1 hf
  refine ⟨rows, by simp [World.print, hout], ?_⟩
  rw [hrows]
  by_cases hc : 0 < count
  · rw [if_pos ⟨hc, rfl⟩, if_pos hc]
  · rw [if_neg (fun hcon => hc hcon.1), if_neg hc]

/-- C13: rail order stability. In every window of the main loop that returns
(for a window size `count > 0`), the rows printed between the header and the
total line are, in order, one row per rail of the table the loop started with,
named as in that table; this holds after any number of earlier windows. No
step of the engine changes the name, device or page of a rail, whether the run
continues or exits; and the names of `zc702_rails` are pairwise distinct. -/
theorem rail_order_stable (count : Nat) (bus : Bus) (n : Nat) (s sn sn1 : MainState)
    (hcount : 0 < count) (hn : mainLoop count bus n s = .ok sn)
    (hw : window count bus sn = .ok sn1) :
    (∃ rows, sn1.world.out
        = Output.footer sn1.totalPower sn1.maxpower :: (rows ++ Output.header :: sn.world.out) ∧
      rows.reverse.map Output.rowName? = (s.rails.map fun x => x.name).map some) ∧
    sn1.rails.map railIdent = s.rails.map railIdent ∧
    (∀ m, (finalState (mainLoop count bus m s)).rails.map railIdent
        = s.rails.map railIdent) ∧
    (zc702_rails.map fun x => x.name).Nodup := by
  have h1 : sn.rails.map railIdent = s.rails.map railIdent := by
    have := mainLoop_ident count bus n s
    rw [hn] at this
    exact this
  have h2 : sn1.rails.map railIdent = sn.rails.map railIdent := by
    have := window_ident count bus sn
    rw [hw] at this
    exact this
  refine ⟨?_, h2.trans h1, fun m => mainLoop_ident count bus m s, by decide⟩
  obtain ⟨rows, hout, hrows⟩ := window_ok_rows count bus sn sn1 hw
  refine ⟨rows, hout, ?_⟩
  rw [hrows, if_pos hcount, names_of_ident _ _ h1]

/-! ## LINEAR11 ranges -/

theorem linear11ToFloat_fields (highByte lowByte : Nat) :
    linear11ToFloat highByte lowByte
      = (linear11Mantissa highByte lowByte : ℚ) * (2 : ℚ) ^ linear11Exponent highByte lowByte :=
  rfl

theorem linear11Exponent_eq (highByte lowByte : Nat) (hh : highByte < 256) (hl : lowByte < 256) :
    linear11Exponent highByte lowByte = signed5 ((highByte * 256 + lowByte) / 2048) := by
  unfold linear11Exponent
  simp only [combinedWord_eq highByte lowByte hh hl, shr_11]
  rw [exponent_signExtend _ (by omega)]

theorem linear11Mantissa_eq (highByte lowByte : Nat) (hh : highByte < 256) (hl : lowByte < 256) :
    linear11Mantissa highByte lowByte = signed11 ((highByte * 256 + lowByte) % 2048) := by
  unfold linear11Mantissa
  simp only [combinedWord_eq highByte lowByte hh hl, and_0x7ff]
  rw [mantissa_signExtend _ (Nat.mod_lt _ (by norm_num))]

theorem linear11_fields_range (highByte lowByte : Nat) (hh : highByte < 256)
    (hl : lowByte < 256) :
    -16 ≤ linear11Exponent highByte lowByte ∧ linear11Exponent highByte lowByte ≤ 15 ∧
    -1024 ≤ linear11Mantissa highByte lowByte ∧ linear11Mantissa highByte lowByte ≤ 1023 := by
  rw [linear11Exponent_eq _ _ hh hl, linear11Mantissa_eq _ _ hh hl]
  unfold signed5 signed11
  refine ⟨?_, ?_, ?_, ?_⟩ <;> split <;> omega

theorem linear11_fields_onto (e m : Int)
    (he0 : -16 ≤ e) (he1 : e ≤ 15) (hm0 : -1024 ≤ m) (hm1 : m ≤ 1023) :
    ∃ highByte lowByte, highByte < 256 ∧ lowByte < 256 ∧
      linear11Exponent highByte lowByte = e ∧ linear11Mantissa highByte lowByte = m := by
  have hw := encodeLinear11_eq e m
  refine ⟨encodeLinear11 e m / 256, encodeLinear11 e m % 256, ?_, Nat.mod_lt _ (by norm_num), ?_⟩
  · omega
  · generalize encodeLinear11 e m = w at hw
    have h1 : w / 256 < 256 := by omega
    rw [linear11Exponent_eq _ _ h1 (Nat.mod_lt _ (by norm_num)),
      linear11Mantissa_eq _ _ h1 (Nat.mod_lt _ (by norm_num))]
    have hword : w / 256 * 256 + w % 256 = w := by omega
    rw [hword]
    have h2 : w % 2048 = (m % 2048).toNat := by omega
    have h3 : w / 2048 = (e % 32).toNat := by omega
    rw [h2, h3]
    unfold signed5 signed11
    constructor <;> split <;> omega

theorem linear11_positive_lower (highByte lowByte : Nat) (hh : highByte < 256)
    (hl : lowByte < 256) (hpos : 0 < linear11ToFloat highByte lowByte) :
    (2 : ℚ) ^ (-16 : Int) ≤ linear11ToFloat highByte lowByte := by
  obtain ⟨he0, -, -, -⟩ := linear11_fields_range highByte lowByte hh hl
  rw [linear11ToFloat_fields] at hpos ⊢
  have hp : (0 : ℚ) < (2 : ℚ) ^ linear11Exponent highByte lowByte := by positivity
  have hm : (0 : ℚ) < (linear11Mantissa highByte lowByte : ℚ) := by
    by_contra hcon
    have : (linear11Mantissa highByte lowByte : ℚ) ≤ 0 := not_lt.mp hcon
    have := mul_nonpos_of_nonpos_of_nonneg this hp.le
    linarith
  have hm1 : (1 : ℚ) ≤ (linear11Mantissa highByte lowByte : ℚ) := by
    have : (0 : Int) < linear11Mantissa highByte lowByte := by exact_mod_cast hm
    exact_mod_cast this
  have hmono : (2 : ℚ) ^ (-16 : Int) ≤ (2 : ℚ) ^ linear11Exponent highByte lowByte :=
    zpow_le_zpow_right₀ (by norm_num) he0
  calc (2 : ℚ) ^ (-16 : Int) ≤ (2 : ℚ) ^ linear11Exponent highByte lowByte := hmono
    _ = 1 * (2 : ℚ) ^ linear11Exponent highByte lowByte := by ring
    _ ≤ (linear11Mantissa highByte lowByte : ℚ) * (2 : ℚ) ^ linear11Exponent highByte lowByte :=
      mul_le_mul_of_nonneg_right hm1 hp.le

theorem linear11_upper (highByte lowByte : Nat) (hh : highByte < 256) (hl : lowByte < 256) :
    linear11ToFloat highByte lowByte ≤ 1023 * (2 : ℚ) ^ (15 : Int) := by
  obtain ⟨-, he1, -, hm1⟩ := linear11_fields_range highByte lowByte hh hl
  rw [linear11ToFloat_fields]
  have hp : (0 : ℚ) < (2 : ℚ) ^ linear11Exponent highByte lowByte := by positivity
  have hmono : (2 : ℚ) ^ linear11Exponent highByte lowByte ≤ (2 : ℚ) ^ (15 : Int) :=
    zpow_le_zpow_right₀ (by norm_num) he1
  have hmq : (linear11Mantissa highByte lowByte : ℚ) ≤ 1023 := by exact_mod_cast hm1
  calc (linear11Mantissa highByte lowByte : ℚ) * (2 : ℚ) ^ linear11Exponent highByte lowByte
      ≤ 1023 * (2 : ℚ) ^ linear11Exponent highByte lowByte :=
        mul_le_mul_of_nonneg_right hmq hp.le
    _ ≤ 1023 * (2 : ℚ) ^ (15 : Int) := mul_le_mul_of_nonneg_left hmono (by norm_num)

/-- C14: LINEAR11 ranges. For all bytes the sign-extended exponent computed by
`linear11ToFloat` lies in `[-16, 15]` and the sign-extended mantissa in
`[-1024, 1023]`; every exponent and mantissa of these ranges is computed for
some pair of bytes; every positive decoded value is at least `2^-16`, which is
the decoded value of the bytes `0x80, 0x01`; every decoded value is at most
`1023 * 2^15`, which is the decoded value of the bytes `0x7B, 0xFF`. -/
theorem linear11_ranges (highByte lowByte : Nat) (e m : Int)
    (hh : highByte < 256) (hl : lowByte < 256)
    (he0 : -16 ≤ e) (he1 : e ≤ 15) (hm0 : -1024 ≤ m) (hm1 : m ≤ 1023) :
    linear11ToFloat highByte lowByte
      = (linear11Mantissa highByte lowByte : ℚ)
          * (2 : ℚ) ^ linear11Exponent highByte lowByte ∧
    (-16 ≤ linear11Exponent highByte lowByte ∧ linear11Exponent highByte lowByte ≤ 15 ∧
      -1024 ≤ linear11Mantissa highByte lowByte ∧ linear11Mantissa highByte lowByte ≤ 1023) ∧
    (∃ h l, h < 256 ∧ l < 256 ∧ linear11Exponent h l = e ∧ linear11Mantissa h l = m) ∧
    (0 < linear11ToFloat highByte lowByte →
      (2 : ℚ) ^ (-16 : Int) ≤ linear11ToFloat highByte lowByte) ∧
    linear11ToFloat 0x80 0x01 = (2 : ℚ) ^ (-16 : Int) ∧
    linear11ToFloat highByte lowByte ≤ 1023 * (2 : ℚ) ^ (15 : Int) ∧
    linear11ToFloat 0x7B 0xFF = 1023 * (2 : ℚ) ^ (15 : Int) :=
  ⟨linear11ToFloat_fields highByte lowByte, linear11_fields_range highByte lowByte hh hl,
    linear11_fields_onto e m he0 he1 hm0 hm1,
    linear11_positive_lower highByte lowByte hh hl, by decide!,
    linear11_upper highByte lowByte hh hl, by decide!⟩

/-- Witness of C14 at the bytes `0xF8, 0x02` and the fields `e = -16`,
`m = -1024`. -/
theorem linear11_ranges_witness :
    (0xF8 < 256 ∧ 0x02 < 256 ∧ (-16 : Int) ≤ -16 ∧ (-16 : Int) ≤ 15 ∧
      (-1024 : Int) ≤ -1024 ∧ (-1024 : Int) ≤ 1023) ∧
    (linear11ToFloat 0xF8 0x02
      = (linear11Mantissa 0xF8 0x02 : ℚ) * (2 : ℚ) ^ linear11Exponent 0xF8 0x02 ∧
    (-16 ≤ linear11Exponent 0xF8 0x02 ∧ linear11Exponent 0xF8 0x02 ≤ 15 ∧
      -1024 ≤ linear11Mantissa 0xF8 0x02 ∧ linear11Mantissa 0xF8 0x02 ≤ 1023) ∧
    (∃ h l, h < 256 ∧ l < 256 ∧ linear11Exponent h l = -16 ∧ linear11Mantissa h l = -1024) ∧
    (0 < linear11ToFloat 0xF8 0x02 → (2 : ℚ) ^ (-16 : Int) ≤ linear11ToFloat 0xF8 0x02) ∧
    linear11ToFloat 0x80 0x01 = (2 : ℚ) ^ (-16 : Int) ∧
    linear11ToFloat 0xF8 0x02 ≤ 1023 * (2 : ℚ) ^ (15 : Int) ∧
    linear11ToFloat 0x7B 0xFF = 1023 * (2 : ℚ) ^ (15 : Int)) :=
  ⟨by decide, linear11_ranges 0xF8 0x02 (-16) (-1024) (by decide) (by decide) (by decide)
    (by decide) (by decide) (by decide)⟩

/-! ## Window reset -/

theorem windowReset_congr (s s1 : MainState)
    (hr : s1.rails.map railIdent = s.rails.map railIdent)
    (hm : s1.maxpower = s.maxpower) (hw : s1.world = s.world) :
    windowReset s1 = windowReset s := by
  have key : ∀ l : List voltage_rail,
      (l.map fun r => { r with average_power := 0, average_current := 0 })
        = (l.map railIdent).map fun p : String × Nat × Nat =>
            ({ name := p.1, device := p.2.1, page := p.2.2,
               average_current := 0, average_power := 0 } : voltage_rail) := by
    intro l
    rw [List.map_map]
    rfl
  unfold windowReset
  rw [key s1.rails, key s.rails, hr, hm, hw]

theorem totalMatch_railStep (count : Nat) (bus : Bus) (k i : Nat) (s s1 : MainState)
    (hs : totalMatch count s) (h : railStep count bus k i s = .ok s1) :
    totalMatch count s1 := by
  cases hrail : s.rails[i]? with
  | none =>
    unfold railStep at h
    rw [hrail] at h
    simp only [Except.ok.injEq] at h
    subst h; exact hs
  | some rail =>
    obtain ⟨v, c, w1, w2, -, -, -, ht, -, hsm, -, -⟩ :=
      railStep_ok count bus k i s s1 rail hrail h
    unfold totalMatch at hs ⊢
    rw [ht, hsm, List.map_cons, List.sum_cons, hs]
    ring

theorem totalMatch_samplePass (count : Nat) (bus : Bus) (k : Nat) (s s2 : MainState)
    (hs : totalMatch count s) (h : samplePass count bus k s = .ok s2) :
    totalMatch count s2 := by
  obtain ⟨s1, hf, rfl⟩ := samplePass_ok count bus k s s2 h
  have key := forLoop_ok_invariant (railStep count bus k) (fun _ t => totalMatch count t)
    s.rails.length s hs
    (fun i t t1 _ ht hst => totalMatch_railStep count bus k i t t1 ht hst)
    s.rails.length (le_refl _) s1 hf
  split <;> exact key

theorem window_totalMatch (count : Nat) (bus : Bus) (s s2 : MainState)
    (h : window count bus s = .ok s2) : totalMatch count s2 := by
  obtain ⟨s1, hf, rfl⟩ := window_ok count bus s s2 h
  exact forLoop_ok_invariant (samplePass count bus) (fun _ t => totalMatch count t)
    count (windowReset s) (by simp [totalMatch, windowReset])
    (fun k t t1 _ ht hst => totalMatch_samplePass count bus k t t1 ht hst)
    count (le_refl _) s1 hf

/-- C15: window reset. After the reset at the top of a window and before any
bus call of the window, `totalPower` and every rail's `average_current` and
`average_power` are zero. Two states that agree on the configuration of the
rails, on `maxpower` and on the outside world, whatever accumulators and total
earlier windows left in them, give the same window. After a window that
returns, the total and the accumulators of every rail are sums over the
samples of that window alone. -/
theorem window_reset_independent (count : Nat) (bus : Bus) (s s1 : MainState)
    (hr : s1.rails.map railIdent = s.rails.map railIdent)
    (hm : s1.maxpower = s.maxpower) (hw : s1.world = s.world) :
    ((windowReset s).totalPower = 0 ∧
      (∀ rail ∈ (windowReset s).rails, rail.average_current = 0 ∧ rail.average_power = 0) ∧
      (windowReset s).world.ops = s.world.ops ∧ (windowReset s).samples = []) ∧
    window count bus s1 = window count bus s ∧
    (∀ s2, window count bus s = .ok s2 →
      s2.samples.length = count * s.rails.length ∧
      s2.totalPower
        = (s2.samples.map fun x => x.voltage * x.current * 1000 / (count : ℚ)).sum ∧
      ∀ r rail, s2.rails[r]? = some rail →
        rail.average_power
            = ((samplesOf r s2.samples).map
                fun x => x.voltage * x.current * 1000 / (count : ℚ)).sum ∧
        rail.average_current
            = ((samplesOf r s2.samples).map fun x => x.current / (count : ℚ)).sum) := by
  refine ⟨⟨rfl, ?_, rfl, rfl⟩, ?_, ?_⟩
  · intro rail hrail
    simp only [windowReset, List.mem_map] at hrail
    obtain ⟨a, -, rfl⟩ := hrail
    exact ⟨rfl, rfl⟩
  · unfold window
    rw [windowReset_congr s s1 hr hm hw]
  · intro s2 h2
    refine ⟨?_, window_totalMatch count bus s s2 h2, (window_sums count bus s s2 h2).2.1⟩
    obtain ⟨s3, hf, rfl⟩ := window_ok count bus s s2 h2
    have hj : (s.rails.map fun x => x.name).length = s.rails.length := List.length_map _ _
    obtain ⟨-, hlen, -⟩ := forLoop_ok_invariant (samplePass count bus)
      (rowsOuter count s.rails.length (s.rails.map fun x => x.name) s.world.out)
      count (windowReset s) (rowsOuter_windowReset count s)
      (fun n t t1 hn ht hst => rowsOuter_samplePass count bus _ _ _ n t t1 hn hj ht hst)
      count (le_refl _) s3 hf
    exact hlen

/-! ## Row contents -/

theorem valsInner_railStep (count : Nat) (bus : Bus) (j : Nat) (out0 : List Output)
    (k i : Nat) (s s1 : MainState) (hi : i < j) (hs : valsInner count j out0 k i s)
    (h : railStep count bus k i s = .ok s1) : valsInner count j out0 k (i + 1) s1 := by
  obtain ⟨hlen, rows, hout, hrows⟩ := hs
  have hi1 : i < s.rails.length := by omega
  have hrail : s.rails[i]? = some s.rails[i] := List.getElem?_eq_getElem hi1
  obtain ⟨v, c, w1, w2, hv, hc, hr, -, -, hsm, -, ho⟩ :=
    railStep_ok count bus k i s s1 _ hrail h
  have hw2 : w2.out = s.world.out := by
    rw [(readCurrent_ok bus _ _ _ _ _ hc).1, (readVoltage_ok bus _ _ _ _ _ hv).1]
  refine ⟨by rw [hr, List.length_set, hlen], ?_⟩
  rw [ho, hw2, hout]
  by_cases hk : k + 1 = count
  · have hk1 : (k : Int) = (count : Int) - 1 := by omega
    rw [if_pos hk1]
    rw [if_pos hk] at hrows
    obtain ⟨hrl, hrm⟩ := hrows
    refine ⟨_ :: rows, rfl, ?_⟩
    rw [if_pos hk]
    refine ⟨by rw [List.length_cons, hrl], fun r hr1 => ?_⟩
    rw [List.reverse_cons]
    by_cases hri : r = i
    · subst hri
      refine ⟨_, ?_, accumulate count s.rails[r] v c,
        { k := k, i := r, voltage := v, current := c }, ?_, ?_, hk, rfl⟩
      · rw [List.getElem?_append_right (by rw [List.length_reverse, hrl])]
        simp [hrl]
        rfl
      · rw [hr, List.getElem?_set, if_pos rfl, if_pos hi1]
      · rw [hsm]
        have e := samplesOf_cons_self { k := k, i := r, voltage := v, current := c } s.samples
        simp only at e
        rw [e]
        simp
    · have hlt : r < i := by omega
      obtain ⟨o, ho1, rail, x, hx1, hx2, hx3, hx4⟩ := hrm r hlt
      refine ⟨o, ?_, rail, x, ?_, ?_, hx3, hx4⟩
      · rw [List.getElem?_append_left (by rw [List.length_reverse, hrl]; exact hlt)]
        exact ho1
      · rw [hr, List.getElem?_set, if_neg (Ne.symm hri)]
        exact hx1
      · rw [hsm, samplesOf_cons_ne r _ _ (by simpa using Ne.symm hri)]
        exact hx2
  · have hk1 : ¬ (k : Int) = (count : Int) - 1 := by omega
    rw [if_neg hk1]
    rw [if_neg hk] at hrows
    exact ⟨rows, rfl, by rw [if_neg hk]; exact hrows⟩

theorem valsOuter_samplePass (count : Nat) (bus : Bus) (j : Nat) (out0 : List Output)
    (n : Nat) (s s2 : MainState) (hn : n < count) (hs : valsOuter count j out0 n s)
    (h : samplePass count bus n s = .ok s2) : valsOuter count j out0 (n + 1) s2 := by
  obtain ⟨s1, hf, rfl⟩ := samplePass_ok count bus n s s2 h
  obtain ⟨hlen, rows, hout, hrows⟩ := hs
  rw [if_neg (by omega)] at hrows
  have h0 : valsInner count j out0 n 0 s := by
    refine ⟨hlen, rows, hout, ?_⟩
    subst hrows
    split
    · exact ⟨rfl, fun r hr => absurd hr (Nat.not_lt_zero r)⟩
    · rfl
  obtain ⟨hlen1, rows1, hout1, hrows1⟩ :=
    forLoop_ok_invariant (railStep count bus n) (valsInner count j out0 n) j s h0
      (fun i t t1 hi ht hst => valsInner_railStep count bus j out0 n i t t1 hi ht hst)
      j (le_refl j) s1 (by rw [← hlen]; exact hf)
  have key : valsOuter count j out0 (n + 1) s1 := by
    refine ⟨hlen1, rows1, hout1, ?_⟩
    by_cases hk : n + 1 = count
    · rw [if_pos hk] at hrows1
      rw [if_pos ⟨Nat.succ_pos n, hk⟩]
      exact hrows1
    · rw [if_neg hk] at hrows1
      rw [if_neg (fun hcon => hk hcon.2)]
      exact hrows1
  split
  · obtain ⟨k1, rows2, k2, k3⟩ := key
    refine ⟨k1, rows2, k2, ?_⟩
    split
    · rename_i hcond
      rw [if_pos hcond] at k3
      exact k3
    · rename_i hcond
      rw [if_neg hcond] at k3
      exact k3
  · exact key

/-- The rows printed by a window that returns, by content. -/
theorem window_ok_row_values (count : Nat) (bus : Bus) (s s2 : MainState)
    (hcount : 0 < count) (h : window count bus s = .ok s2) :
    ∃ rows, s2.world.out
        = Output.footer s2.totalPower s2.maxpower :: (rows ++ Output.header :: s.world.out) ∧
      rows.length = s.rails.length ∧
      ∀ r, r < s.rails.length → ∃ o, rows.reverse[r]? = some o ∧ rowMatches count s2 r o := by
  obtain ⟨s1, hf, rfl⟩ := window_ok count bus s s2 h
  have h0 : valsOuter count s.rails.length s.world.out 0 (windowReset s) := by
    refine ⟨by simp [windowReset], [], rfl, ?_⟩
    rw [if_neg (by omega)]
  obtain ⟨-, rows, hout, hrows⟩ := forLoop_ok_invariant (samplePass count bus)
    (valsOuter count s.rails.length s.world.out) count (windowReset s) h0
    (fun n t t1 hn ht hst => valsOuter_samplePass count bus _ _ n t t1 hn ht hst)
    count (le_refl _) s1 hf
  rw [if_pos ⟨hcount, rfl⟩] at hrows
  refine ⟨rows, by simp [World.print, hout], hrows.1, fun r hr => ?_⟩
  obtain ⟨o, ho, hm⟩ := hrows.2 r hr
  exact ⟨o, ho, hm⟩

/-- C17: reported row contents. In a window that returns (window size
`count > 0`) exactly one row per rail is printed between the header and the
total line, and the row of every rail carries: the rail's name; the voltage of
the rail's last sample, which is the sample read at the final index
`count - 1`; the rail's `average_current` as it is after the window, times
1000; and the rail's `average_power` as it is after the window, which is the
sum of the terms of all `count` samples. -/
theorem reported_row_contents (count : Nat) (bus : Bus) (s s2 : MainState) (r : Nat)
    (rail : voltage_rail) (hcount : 0 < count)
    (hw : window count bus s = .ok s2) (hr : s2.rails[r]? = some rail) :
    ∃ rows x, s2.world.out
        = Output.footer s2.totalPower s2.maxpower :: (rows ++ Output.header :: s.world.out) ∧
      rows.length = s.rails.length ∧
      (samplesOf r s2.samples).getLast? = some x ∧ x.k = count - 1 ∧
      rows.reverse[r]?
        = some (Output.row rail.name x.voltage (rail.average_current * 1000)
            rail.average_power) ∧
      (samplesOf r s2.samples).map (fun y => y.k) = List.range count ∧
      rail.average_power
        = ((samplesOf r s2.samples).map
            fun y => y.voltage * y.current * 1000 / (count : ℚ)).sum ∧
      rail.average_current
        = ((samplesOf r s2.samples).map fun y => y.current / (count : ℚ)).sum := by
  obtain ⟨hlen, hsum, hks⟩ := window_sums count bus s s2 hw
  have hrlt : r < s.rails.length := by
    rw [← hlen]
    by_contra hcon
    rw [List.getElem?_eq_none (by omega)] at hr
    simp at hr
  obtain ⟨rows, hout, hrl, hrm⟩ := window_ok_row_values count bus s s2 hcount hw
  obtain ⟨o, ho, rail1, x, hx1, hx2, hx3, hx4⟩ := hrm r hrlt
  rw [hr] at hx1
  simp only [Option.some.injEq] at hx1
  subst hx1
  refine ⟨rows, x, hout, hrl, hx2, by omega, by rw [ho, hx4], hks r hrlt, hsum r rail hr⟩

/-! ## The total and the rails -/

theorem sum_map_set (f : voltage_rail → ℚ) :
    ∀ (l : List voltage_rail) (i : Nat) (a b : voltage_rail), l[i]? = some b →
      ((l.set i a).map f).sum = (l.map f).sum - f b + f a := by
  intro l
  induction l with
  | nil => intro i a b h; simp at h
  | cons x xs ih =>
    intro i a b h
    cases i with
    | zero =>
      simp only [List.getElem?_cons_zero, Option.some.injEq] at h
      subst h
      simp only [List.set_cons_zero, List.map_cons, List.sum_cons]
      ring
    | succ i =>
      simp only [List.getElem?_cons_succ] at h
      simp only [List.set_cons_succ, List.map_cons, List.sum_cons]
      rw [ih i a b h]
      ring

theorem totalEqSum_railStep (count : Nat) (bus : Bus) (k i : Nat) (s : MainState)
    (hs : totalEqSum s) : totalEqSum (finalState (railStep count bus k i s)) := by
  cases h : railStep count bus k i s with
  | error e =>
    obtain ⟨h1, h2, -⟩ := railStep_error count bus k i s e h
    show e.totalPower = (e.rails.map fun x => x.average_power).sum
    rw [h1, h2]
    exact hs
  | ok s1 =>
    cases hrail : s.rails[i]? with
    | none =>
      unfold railStep at h
      rw [hrail] at h
      simp only [Except.ok.injEq] at h
      subst h; exact hs
    | some rail =>
      obtain ⟨v, c, w1, w2, -, -, hr, ht, -⟩ := railStep_ok count bus k i s s1 rail hrail h
      show s1.totalPower = (s1.rails.map fun x => x.average_power).sum
      rw [hr, ht, sum_map_set (fun x => x.average_power) s.rails i _ rail hrail]
      unfold totalEqSum at hs
      rw [hs]
      simp only [accumulate]
      ring

theorem totalEqSum_samplePass (count : Nat) (bus : Bus) (k : Nat) (s : MainState)
    (hs : totalEqSum s) : totalEqSum (finalState (samplePass count bus k s)) := by
  have key := forLoop_pred (railStep count bus k) totalEqSum
    (fun i t ht => totalEqSum_railStep count bus k i t ht) s.rails.length s hs
  unfold samplePass
  cases hf : forLoop (railStep count bus k) s.rails.length s with
  | error e => rw [hf] at key; exact key
  | ok s1 =>
    rw [hf] at key
    simp only [finalState] at key ⊢
    split <;> exact key

theorem totalEqSum_windowReset (s : MainState) : totalEqSum (windowReset s) := by
  unfold totalEqSum windowReset
  simp only [List.map_map]
  symm
  apply List.sum_eq_zero
  intro b hb
  obtain ⟨x, -, rfl⟩ := List.mem_map.mp hb
  rfl

theorem totalEqSum_window (count : Nat) (bus : Bus) (s : MainState) :
    totalEqSum (finalState (window count bus s)) := by
  have key := forLoop_pred (samplePass count bus) totalEqSum
    (fun k t ht => totalEqSum_samplePass count bus k t ht) count (windowReset s)
    (totalEqSum_windowReset s)
  unfold window
  cases hf : forLoop (samplePass count bus) count (windowReset s) with
  | error e => rw [hf] at key; exact key
  | ok s1 => rw [hf] at key; exact key

/-- The power column of the rows of a window that returns is the list of the
rails' accumulated powers. -/
theorem window_row_powers (count : Nat) (bus : Bus) (s s2 : MainState)
    (hcount : 0 < count) (h : window count bus s = .ok s2) :
    ∃ rows, s2.world.out
        = Output.footer s2.totalPower s2.maxpower :: (rows ++ Output.header :: s.world.out) ∧
      rows.reverse.map Output.rowPower = s2.rails.map fun x => x.average_power := by
  obtain ⟨rows, hout, hrl, hrm⟩ := window_ok_row_values count bus s s2 hcount h
  have hlen : s2.rails.length = s.rails.length := (window_sums count bus s s2 h).1
  refine ⟨rows, hout, ?_⟩
  apply List.ext_getElem?
  intro m
  rw [List.getElem?_map, List.getElem?_map]
  by_cases hm : m < s.rails.length
  · obtain ⟨o, ho, rail, x, hx1, -, -, hx4⟩ := hrm m hm
    rw [ho, hx1, hx4]
    rfl
  · rw [List.getElem?_eq_none (by rw [List.length_reverse, hrl]; omega),
      List.getElem?_eq_none (by omega)]
    rfl

/-- C18: total equals sum of rails. At every point of a window, after any
number `n` of complete sample passes and any number `i` of rail steps of the
next pass (also if a step exits), `totalPower` is the sum of the rails'
`average_power`; it is so after the window; and in a window that returns the
total on the `TOTAL POWER` line is the sum of the power column of the rows
printed for that window. -/
theorem total_is_sum_of_rails (count : Nat) (bus : Bus) (s s2 : MainState)
    (hcount : 0 < count) (hw : window count bus s = .ok s2) :
    (∀ n i, totalEqSum
      (finalState (forLoop (railStep count bus n) i
        (finalState (forLoop (samplePass count bus) n (windowReset s)))))) ∧
    s2.totalPower = (s2.rails.map fun x => x.average_power).sum ∧
    ∃ rows, s2.world.out
        = Output.footer s2.totalPower s2.maxpower :: (rows ++ Output.header :: s.world.out) ∧
      (rows.map Output.rowPower).sum = s2.totalPower := by
  have hfin : totalEqSum s2 := by
    have := totalEqSum_window count bus s
    rw [hw] at this
    exact this
  refine ⟨fun n i => ?_, hfin, ?_⟩
  · exact forLoop_pred (railStep count bus n) totalEqSum
      (fun i t ht => totalEqSum_railStep count bus n i t ht) i _
      (forLoop_pred (samplePass count bus) totalEqSum
        (fun k t ht => totalEqSum_samplePass count bus k t ht) n (windowReset s)
        (totalEqSum_windowReset s))
  · obtain ⟨rows, hout, hp⟩ := window_row_powers count bus s s2 hcount hw
    refine ⟨rows, hout, ?_⟩
    have e : (rows.map Output.rowPower).sum = (rows.reverse.map Output.rowPower).sum := by
      rw [List.map_reverse, List.sum_reverse]
    rw [e, hp]
    exact hfin.symm

/-! ## Peak tracking -/

theorem railLoop_maxpower (count : Nat) (bus : Bus) (k n : Nat) (s s1 : MainState)
    (h : forLoop (railStep count bus k) n s = .ok s1) : s1.maxpower = s.maxpower := by
  have key := forLoop_rel (railStep count bus k) (fun a b => b.maxpower = a.maxpower)
    (fun _ => rfl) (fun _ _ _ h1 h2 => h2.trans h1)
    (fun i t => railStep_maxpower count bus k i t) n s
  rw [h] at key
  exact key

/-- The peak check at the end of a pass. -/
theorem samplePass_peak (count : Nat) (bus : Bus) (k : Nat) (s s2 : MainState)
    (h : samplePass count bus k s = .ok s2) :
    s2.maxpower = max s.maxpower s2.totalPower := by
  obtain ⟨s1, hf, rfl⟩ := samplePass_ok count bus k s s2 h
  have hm := railLoop_maxpower count bus k _ s s1 hf
  by_cases hlt : s1.maxpower < s1.totalPower
  · rw [if_pos hlt]
    show s1.totalPower = max s.maxpower s1.totalPower
    rw [← hm, max_eq_right (le_of_lt hlt)]
  · rw [if_neg hlt, ← hm, max_eq_left (not_lt.mp hlt)]

theorem passes_peak (count : Nat) (bus : Bus) (s : MainState) :
    ∀ n t, forLoop (samplePass count bus) n (windowReset s) = .ok t →
      t.maxpower = ((List.range n).map (aggregateAfter count bus s)).foldl max s.maxpower := by
  intro n
  induction n with
  | zero =>
    intro t h
    rw [forLoop_zero] at h
    simp only [Except.ok.injEq] at h
    subst h; rfl
  | succ n ih =>
    intro t h
    cases hf : forLoop (samplePass count bus) n (windowReset s) with
    | error e => rw [forLoop_succ_error _ n _ e hf] at h; simp at h
    | ok t1 =>
      have hagg : aggregateAfter count bus s n = t.totalPower := by
        unfold aggregateAfter
        rw [h]
        rfl
      rw [forLoop_succ_ok _ n _ t1 hf] at h
      rw [List.range_succ, List.map_append, List.foldl_append, ← ih t1 hf,
        samplePass_peak count bus n t1 t h]
      simp [hagg]

/-- C16: peak tracking after every sample. A sample pass that returns leaves
`maxpower` at the maximum of its previous value and the aggregate so far
(`totalPower` after the pass). After a window that returns (window size
`count > 0`) `maxpower` is the maximum of its value before the window and the
`count` aggregates observed after the passes `0 .. count - 1`; the last of
these is the total of the window, so the maximum on the total line is at least
the total on that line. -/
theorem peak_tracking (count : Nat) (bus : Bus) (s s2 : MainState) (k : Nat)
    (t t2 : MainState) (hcount : 0 < count)
    (hw : window count bus s = .ok s2) (hp : samplePass count bus k t = .ok t2) :
    t2.maxpower = max t.maxpower t2.totalPower ∧
    s2.maxpower
      = ((List.range count).map (aggregateAfter count bus s)).foldl max s.maxpower ∧
    s2.totalPower = aggregateAfter count bus s (count - 1) ∧
    s2.totalPower ≤ s2.maxpower ∧
    ∃ rest, s2.world.out = Output.footer s2.totalPower s2.maxpower :: rest := by
  obtain ⟨s1, hf, rfl⟩ := window_ok count bus s s2 hw
  have hpk := passes_peak count bus s count s1 hf
  obtain ⟨n, rfl⟩ : ∃ n, count = n + 1 := ⟨count - 1, by omega⟩
  have hagg : aggregateAfter (n + 1) bus s n = s1.totalPower := by
    unfold aggregateAfter
    rw [hf]
    rfl
  refine ⟨samplePass_peak _ bus k t t2 hp, hpk, ?_, ?_, _, rfl⟩
  · show s1.totalPower = aggregateAfter (n + 1) bus s (n + 1 - 1)
    rw [Nat.add_sub_cancel, hagg]
  · show s1.totalPower ≤ s1.maxpower
    cases hg : forLoop (samplePass (n + 1) bus) n (windowReset s) with
    | error e => rw [forLoop_succ_error _ n _ e hg] at hf; simp at hf
    | ok t1 =>
      rw [forLoop_succ_ok _ n _ t1 hg] at hf
      rw [samplePass_peak (n + 1) bus n t1 s1 hf]
      exact le_max_right _ _

/-! ## Non-negative power -/

/-- A loop that returns after `n` iterations has returned after every smaller
number of iterations. -/
theorem forLoop_ok_earlier {σ : Type} (body : Nat → σ → Except σ σ) (n m : Nat) (s t : σ)
    (hmn : m ≤ n) (h : forLoop body n s = .ok t) : ∃ t1, forLoop body m s = .ok t1 := by
  cases hf : forLoop body m s with
  | ok t1 => exact ⟨t1, rfl⟩
  | error e =>
    rw [forLoop_error_mono body m n s e hmn hf] at h
    simp at h

/-- A reflexive, transitive relation kept by every returning iteration relates
the states after `m ≤ n` iterations. -/
theorem forLoop_ok_chain {σ : Type} (body : Nat → σ → Except σ σ) (R : σ → σ → Prop)
    (hrefl : ∀ s, R s s) (htrans : ∀ a b c, R a b → R b c → R a c)
    (hbody : ∀ n s s1, body n s = .ok s1 → R s s1) (s : σ) :
    ∀ n m tm tn, m ≤ n → forLoop body m s = .ok tm → forLoop body n s = .ok tn → R tm tn := by
  intro n
  induction n with
  | zero =>
    intro m tm tn hmn hm hn
    have : m = 0 := by omega
    subst this
    rw [hm] at hn
    simp only [Except.ok.injEq] at hn
    subst hn; exact hrefl _
  | succ n ih =>
    intro m tm tn hmn hm hn
    by_cases hmeq : m = n + 1
    · subst hmeq
      rw [hm] at hn
      simp only [Except.ok.injEq] at hn
      subst hn; exact hrefl _
    · obtain ⟨t1, ht1⟩ := forLoop_ok_earlier body (n + 1) n s tn (by omega) hn
      rw [forLoop_succ_ok body n s t1 ht1] at hn
      exact htrans _ _ _ (ih m tm t1 (by omega) hm ht1) (hbody n t1 tn hn)

theorem railStep_nonneg (count : Nat) (bus : Bus) (k i : Nat) (s s1 : MainState)
    (h : railStep count bus k i s = .ok s1) (hn : samplesNonneg s1) :
    samplesNonneg s ∧ s.totalPower ≤ s1.totalPower := by
  cases hrail : s.rails[i]? with
  | none =>
    unfold railStep at h
    rw [hrail] at h
    simp only [Except.ok.injEq] at h
    subst h
    exact ⟨hn, le_refl _⟩
  | some rail =>
    obtain ⟨v, c, w1, w2, -, -, -, ht, -, hsm, -, -⟩ :=
      railStep_ok count bus k i s s1 rail hrail h
    unfold samplesNonneg at hn
    rw [hsm] at hn
    refine ⟨fun x hx => hn x (List.mem_cons_of_mem _ hx), ?_⟩
    have hvc : 0 ≤ v * c := hn { k := k, i := i, voltage := v, current := c }
      (List.mem_cons_self _ _)
    have hc : (0 : ℚ) ≤ (count : ℚ) := Nat.cast_nonneg count
    have : 0 ≤ v * c * 1000 / (count : ℚ) := by positivity
    rw [ht]
    linarith

theorem samplePass_nonneg (count : Nat) (bus : Bus) (k : Nat) (s s2 : MainState)
    (h : samplePass count bus k s = .ok s2) (hn : samplesNonneg s2) :
    samplesNonneg s ∧ s.totalPower ≤ s2.totalPower := by
  obtain ⟨s1, hf, rfl⟩ := samplePass_ok count bus k s s2 h
  have key := forLoop_ok_invariant (railStep count bus k)
    (fun _ t => samplesNonneg t → samplesNonneg s ∧ s.totalPower ≤ t.totalPower)
    s.rails.length s (fun h0 => ⟨h0, le_refl _⟩)
    (fun i t t1 _ ht hst h1 => by
      obtain ⟨a, b⟩ := railStep_nonneg count bus k i t t1 hst h1
      obtain ⟨c, d⟩ := ht a
      exact ⟨c, le_trans d b⟩)
    s.rails.length (le_refl _) s1 hf
  have hn1 : samplesNonneg s1 := by
    by_cases hlt : s1.maxpower < s1.totalPower
    · rw [if_pos hlt] at hn; exact hn
    · rw [if_neg hlt] at hn; exact hn
  obtain ⟨a, b⟩ := key hn1
  refine ⟨a, ?_⟩
  by_cases hlt : s1.maxpower < s1.totalPower
  · rw [if_pos hlt]; exact b
  · rw [if_neg hlt]; exact b

/-- With no negative sample, after `n ≥ 1` passes `maxpower` is the maximum of
its value at the start of the window and the aggregate so far. -/
theorem passes_nonneg_peak (count : Nat) (bus : Bus) (s : MainState) :
    ∀ n t, forLoop (samplePass count bus) n (windowReset s) = .ok t → samplesNonneg t →
      0 ≤ t.totalPower ∧
      t.maxpower = if n = 0 then s.maxpower else max s.maxpower t.totalPower := by
  intro n
  induction n with
  | zero =>
    intro t h _
    rw [forLoop_zero] at h
    simp only [Except.ok.injEq] at h
    subst h
    exact ⟨le_refl _, rfl⟩
  | succ n ih =>
    intro t h hn
    cases hf : forLoop (samplePass count bus) n (windowReset s) with
    | error e => rw [forLoop_succ_error _ n _ e hf] at h; simp at h
    | ok t1 =>
      rw [forLoop_succ_ok _ n _ t1 hf] at h
      obtain ⟨hn1, hle⟩ := samplePass_nonneg count bus n t1 t h hn
      obtain ⟨h0, hm⟩ := ih t1 hf hn1
      refine ⟨le_trans h0 hle, ?_⟩
      rw [if_neg (Nat.succ_ne_zero n), samplePass_peak count bus n t1 t h, hm]
      by_cases hz : n = 0
      · rw [if_pos hz]
      · rw [if_neg hz, max_assoc, max_eq_right hle]

theorem window_nonneg_peak (count : Nat) (bus : Bus) (s s2 : MainState) (hcount : 0 < count)
    (hw : window count bus s = .ok s2) (hn : samplesNonneg s2) :
    s2.maxpower = max s.maxpower s2.totalPower := by
  obtain ⟨s1, hf, rfl⟩ := window_ok count bus s s2 hw
  have := (passes_nonneg_peak count bus s count s1 hf hn).2
  rw [if_neg (by omega)] at this
  exact this

theorem aggregate_nondecreasing (count : Nat) (bus : Bus) (s s2 : MainState)
    (hw : window count bus s = .ok s2) (hn : samplesNonneg s2) (k : Nat)
    (hk : k + 1 < count) :
    aggregateAfter count bus s k ≤ aggregateAfter count bus s (k + 1) := by
  obtain ⟨s1, hf, rfl⟩ := window_ok count bus s s2 hw
  obtain ⟨tb, hb⟩ := forLoop_ok_earlier (samplePass count bus) count (k + 2) _ s1 (by omega) hf
  obtain ⟨ta, ha⟩ := forLoop_ok_earlier (samplePass count bus) (k + 2) (k + 1) _ tb (by omega) hb
  have hnb : samplesNonneg tb :=
    forLoop_ok_chain (samplePass count bus) (fun a b => samplesNonneg b → samplesNonneg a)
      (fun _ h => h) (fun _ _ _ h1 h2 h3 => h1 (h2 h3))
      (fun n t t1 hst h1 => (samplePass_nonneg count bus n t t1 hst h1).1)
      (windowReset s) count (k + 2) tb s1 (by omega) hb hf hn
  have hstep : samplePass count bus (k + 1) ta = .ok tb := by
    rw [← forLoop_succ_ok _ (k + 1) _ ta ha]
    exact hb
  unfold aggregateAfter
  rw [ha, hb]
  exact (samplePass_nonneg count bus (k + 1) ta tb hstep hnb).2

theorem mainLoop_nonneg_peak (count : Nat) (bus : Bus) (s0 : MainState) (hcount : 0 < count) :
    ∀ n sn, mainLoop count bus n s0 = .ok sn →
      (∀ m, m < n → ∀ t, mainLoop count bus (m + 1) s0 = .ok t → samplesNonneg t) →
      sn.maxpower = s0.maxpower ∨
        ∃ m, m < n ∧ ∃ t, mainLoop count bus (m + 1) s0 = .ok t ∧ sn.maxpower = t.totalPower := by
  intro n
  induction n with
  | zero =>
    intro sn h _
    unfold mainLoop at h
    rw [forLoop_zero] at h
    simp only [Except.ok.injEq] at h
    subst h
    exact Or.inl rfl
  | succ n ih =>
    intro t h hall
    have h' := h
    unfold mainLoop at h
    cases hf : forLoop (fun _ => window count bus) n s0 with
    | error e => rw [forLoop_succ_error _ n _ e hf] at h; simp at h
    | ok sn =>
      rw [forLoop_succ_ok _ n _ sn hf] at h
      have hnn : samplesNonneg t := hall n (Nat.lt_succ_self n) t h'
      have hpk := window_nonneg_peak count bus sn t hcount h hnn
      rcases le_total sn.maxpower t.totalPower with hle | hle
      · right
        exact ⟨n, Nat.lt_succ_self n, t, h', by rw [hpk, max_eq_right hle]⟩
      · rw [max_eq_left hle] at hpk
        rcases ih sn hf (fun m hm u hu => hall m (by omega) u hu) with h1 | ⟨m, hm, u, hu, he⟩
        · left; rw [hpk, h1]
        · right; exact ⟨m, by omega, u, hu, by rw [hpk, he]⟩

/-- C19: the per-sample peak check is redundant for non-negative power. If no
sample of a window that returns has negative power (`voltage * current ≥ 0`;
window size `count > 0`), the aggregate so far does not decrease from one
sample pass to the next and `maxpower` after the window is the maximum of its
value before the window and the window's final `totalPower`. Along the main
loop, if no sample of any window is negative, `maxpower` after `n` windows is
its initial value or the final total of one of these windows. -/
theorem peak_check_redundant (count : Nat) (bus : Bus) (s s2 : MainState) (n : Nat)
    (s0 sn : MainState) (hcount : 0 < count)
    (hw : window count bus s = .ok s2)
    (hpos : ∀ x ∈ s2.samples, 0 ≤ x.voltage * x.current)
    (hn : mainLoop count bus n s0 = .ok sn)
    (hall : ∀ m, m < n → ∀ t, mainLoop count bus (m + 1) s0 = .ok t →
      ∀ x ∈ t.samples, 0 ≤ x.voltage * x.current) :
    (∀ k, k + 1 < count →
      aggregateAfter count bus s k ≤ aggregateAfter count bus s (k + 1)) ∧
    s2.maxpower = max s.maxpower s2.totalPower ∧
    (sn.maxpower = s0.maxpower ∨
      ∃ m, m < n ∧ ∃ t, mainLoop count bus (m + 1) s0 = .ok t ∧
        sn.maxpower = t.totalPower) :=
  ⟨fun k hk => aggregate_nondecreasing count bus s s2 hw hpos k hk,
    window_nonneg_peak count bus s s2 hcount hw hpos,
    mainLoop_nonneg_peak count bus s0 hcount n sn hn hall⟩

/-! ## Single precision -/

theorem roundNearestEven_intCast (n : Int) : roundNearestEven (n : ℚ) = n := by
  unfold roundNearestEven
  simp only [Int.floor_intCast, sub_self]
  rw [if_pos (by norm_num)]

theorem toBinary32_zero : toBinary32 0 = some 0 := by
  have h : roundNearestEven ((0 : ℚ) / (2 : ℚ) ^ binary32Ulp 0) = 0 := by
    rw [zero_div]
    exact roundNearestEven_intCast 0
  unfold toBinary32
  simp only [h, Int.cast_zero, zero_mul, abs_zero]
  rw [if_pos (by positivity)]

/-- The conversion to `float` returns a finite binary32 value unchanged. -/
theorem toBinary32_of_isBinary32 (x : ℚ) (h : isBinary32 x) : toBinary32 x = some x := by
  obtain ⟨M, E, hM, hE0, hE1, rfl⟩ := h
  by_cases hz : (M : ℚ) = 0
  · rw [hz, zero_mul]
    exact toBinary32_zero
  have h2 : (2 : ℚ) ≠ 0 := by norm_num
  have hMq : |(M : ℚ)| < (2 : ℚ) ^ (24 : Nat) := by
    have : ((|M| : Int) : ℚ) < ((2 ^ 24 : Int) : ℚ) := by exact_mod_cast hM
    rw [Int.cast_abs] at this
    simpa using this
  have hpE : (0 : ℚ) < (2 : ℚ) ^ E := by positivity
  -- the unit in the last place is not coarser than `2 ^ E`
  have hu : binary32Ulp ((M : ℚ) * (2 : ℚ) ^ E) ≤ E := by
    unfold binary32Ulp
    apply max_le _ hE0
    have hpos : (0 : ℚ) < |(M : ℚ) * (2 : ℚ) ^ E| := by
      rw [abs_pos]
      exact mul_ne_zero hz hpE.ne'
    have hlt : |(M : ℚ) * (2 : ℚ) ^ E| < ((2 : Nat) : ℚ) ^ (E + 24) := by
      rw [abs_mul, abs_of_pos hpE, zpow_add₀ (by norm_num), mul_comm]
      have : (((2 : Nat) : ℚ) ^ (24 : Int)) = (2 : ℚ) ^ (24 : Nat) := by norm_num
      rw [this]
      have e2 : ((2 : Nat) : ℚ) = 2 := by norm_num
      rw [e2]
      exact mul_lt_mul_of_pos_left hMq hpE
    have := (Int.lt_zpow_iff_log_lt (R := ℚ) (b := 2) (by norm_num) hpos).mp hlt
    omega
  unfold toBinary32
  simp only
  generalize binary32Ulp ((M : ℚ) * (2 : ℚ) ^ E) = u at hu ⊢
  -- so the value is an integer number of units
  have hquot : (M : ℚ) * (2 : ℚ) ^ E / (2 : ℚ) ^ u = ((M * 2 ^ (E - u).toNat : Int) : ℚ) := by
    have hEu : ((E - u).toNat : Int) = E - u := Int.toNat_of_nonneg (by omega)
    push_cast
    rw [← zpow_natCast, hEu, zpow_sub₀ h2]
    ring
  have hy : (roundNearestEven ((M : ℚ) * (2 : ℚ) ^ E / (2 : ℚ) ^ u) : ℚ) * (2 : ℚ) ^ u
      = (M : ℚ) * (2 : ℚ) ^ E := by
    rw [hquot, roundNearestEven_intCast, ← hquot]
    field_simp
  have hfin : |(M : ℚ) * (2 : ℚ) ^ E| < (2 : ℚ) ^ (128 : Int) := by
    rw [abs_mul, abs_of_pos hpE]
    have h104 : (2 : ℚ) ^ E ≤ (2 : ℚ) ^ (104 : Int) := zpow_le_zpow_right₀ (by norm_num) hE1
    calc |(M : ℚ)| * (2 : ℚ) ^ E < (2 : ℚ) ^ (24 : Nat) * (2 : ℚ) ^ E :=
          mul_lt_mul_of_pos_right hMq hpE
      _ ≤ (2 : ℚ) ^ (24 : Nat) * (2 : ℚ) ^ (104 : Int) :=
          mul_le_mul_of_nonneg_left h104 (by positivity)
      _ = (2 : ℚ) ^ (128 : Int) := by norm_num
  rw [hy, if_pos hfin]

theorem linear11ToFloat_isBinary32 (highByte lowByte : Nat) (hh : highByte < 256)
    (hl : lowByte < 256) : isBinary32 (linear11ToFloat highByte lowByte) := by
  obtain ⟨he0, he1, hm0, hm1⟩ := linear11_fields_range highByte lowByte hh hl
  refine ⟨linear11Mantissa highByte lowByte, linear11Exponent highByte lowByte, ?_,
    by omega, by omega, linear11ToFloat_fields highByte lowByte⟩
  rw [abs_lt]
  constructor <;> omega

theorem raw_isBinary32 (r : Int) (hr0 : 0 ≤ r) (hr1 : r ≤ 65535) :
    isBinary32 (r : ℚ) ∧ isBinary32 ((r : ℚ) / 4096) := by
  have habs : |r| < 2 ^ 24 := by
    rw [abs_lt]
    constructor <;> omega
  refine ⟨⟨r, 0, habs, by norm_num, by norm_num, by simp⟩,
    ⟨r, -12, habs, by norm_num, by norm_num, ?_⟩⟩
  rw [div_eq_mul_inv]
  norm_num

/-- C20: the narrowing to single precision loses nothing. For all bytes the
value `m * 2^e` that `linear11ToFloat` computes is an integer of magnitude
below `2^24` times a power of two of the binary32 exponent range, and the
conversion to `float` (round to nearest, ties to even) returns it unchanged:
this is the cast of line 179 and the `float` return of `readCurrent`. For every
raw value `r` in `[0, 65535]` the same holds of `r` and of `r / 4096`: the
conversion of `status` to `float` and the single-precision quotient of line
204 are exact. -/
theorem float_narrowing_exact (highByte lowByte : Nat) (r : Int)
    (hh : highByte < 256) (hl : lowByte < 256) (hr0 : 0 ≤ r) (hr1 : r ≤ 65535) :
    (isBinary32 (linear11ToFloat highByte lowByte) ∧
      toBinary32 (linear11ToFloat highByte lowByte)
        = some (linear11ToFloat highByte lowByte)) ∧
    (isBinary32 (r : ℚ) ∧ toBinary32 (r : ℚ) = some (r : ℚ)) ∧
    (isBinary32 ((r : ℚ) / 4096) ∧ toBinary32 ((r : ℚ) / 4096) = some ((r : ℚ) / 4096)) := by
  have h1 := linear11ToFloat_isBinary32 highByte lowByte hh hl
  obtain ⟨h2, h3⟩ := raw_isBinary32 r hr0 hr1
  exact ⟨⟨h1, toBinary32_of_isBinary32 _ h1⟩, ⟨h2, toBinary32_of_isBinary32 _ h2⟩,
    ⟨h3, toBinary32_of_isBinary32 _ h3⟩⟩

/-- Witness of C20 at the bytes `0x84, 0x00` (the value `-1024 * 2^-16`) and
the raw value `0xFFFF`. -/
theorem float_narrowing_exact_witness :
    (0x84 < 256 ∧ 0x00 < 256 ∧ (0 : Int) ≤ 65535 ∧ (65535 : Int) ≤ 65535) ∧
    ((isBinary32 (linear11ToFloat 0x84 0x00) ∧
      toBinary32 (linear11ToFloat 0x84 0x00) = some (linear11ToFloat 0x84 0x00)) ∧
    (isBinary32 ((65535 : Int) : ℚ) ∧ toBinary32 ((65535 : Int) : ℚ) = some ((65535 : Int) : ℚ)) ∧
    (isBinary32 (((65535 : Int) : ℚ) / 4096) ∧
      toBinary32 (((65535 : Int) : ℚ) / 4096) = some (((65535 : Int) : ℚ) / 4096))) :=
  ⟨by decide, float_narrowing_exact 0x84 0x00 65535 (by decide) (by decide) (by decide)
    (by decide)⟩

/-! ## Instances on a window of two samples -/

/-- Witness of C13: the second window of two samples on `busRamp`. -/
theorem rail_order_stable_witness :
    (0 < 2 ∧ mainLoop 2 busRamp 1 initialState = .ok smallFirst ∧
      window 2 busRamp smallFirst = .ok smallSecond) ∧
    ((∃ rows, smallSecond.world.out
        = Output.footer smallSecond.totalPower smallSecond.maxpower
            :: (rows ++ Output.header :: smallFirst.world.out) ∧
      rows.reverse.map Output.rowName? = (initialState.rails.map fun x => x.name).map some) ∧
    smallSecond.rails.map railIdent = initialState.rails.map railIdent ∧
    (∀ m, (finalState (mainLoop 2 busRamp m initialState)).rails.map railIdent
        = initialState.rails.map railIdent) ∧
    (zc702_rails.map fun x => x.name).Nodup) := by
  have h0 : 0 < 2 := by decide
  have hn : mainLoop 2 busRamp 1 initialState = .ok smallFirst := by decide!
  have hw : window 2 busRamp smallFirst = .ok smallSecond := by decide!
  exact ⟨⟨h0, hn, hw⟩, rail_order_stable 2 busRamp 1 initialState smallFirst smallSecond h0 hn hw⟩

/-- Witness of C15: the second window started from `smallFirst` and from
`smallFirstOther`. -/
theorem window_reset_independent_witness :
    (smallFirstOther.rails.map railIdent = smallFirst.rails.map railIdent ∧
      smallFirstOther.maxpower = smallFirst.maxpower ∧
      smallFirstOther.world = smallFirst.world ∧
      smallFirstOther.totalPower ≠ smallFirst.totalPower) ∧
    window 2 busRamp smallFirstOther = window 2 busRamp smallFirst := by
  have hr : smallFirstOther.rails.map railIdent = smallFirst.rails.map railIdent := by decide!
  have hm : smallFirstOther.maxpower = smallFirst.maxpower := rfl
  have hw : smallFirstOther.world = smallFirst.world := rfl
  exact ⟨⟨hr, hm, hw, by decide!⟩,
    (window_reset_independent 2 busRamp smallFirst smallFirstOther hr hm hw).2.1⟩

/-- Witness of C16: the first window of two samples on `busRamp` and its first
sample pass. -/
theorem peak_tracking_witness :
    (0 < 2 ∧ window 2 busRamp initialState = .ok smallFirst ∧
      samplePass 2 busRamp 0 (windowReset initialState) = .ok smallPass) ∧
    (smallPass.maxpower = max (windowReset initialState).maxpower smallPass.totalPower ∧
    smallFirst.maxpower
      = ((List.range 2).map (aggregateAfter 2 busRamp initialState)).foldl max
          initialState.maxpower ∧
    smallFirst.totalPower = aggregateAfter 2 busRamp initialState (2 - 1) ∧
    smallFirst.totalPower ≤ smallFirst.maxpower ∧
    ∃ rest, smallFirst.world.out
      = Output.footer smallFirst.totalPower smallFirst.maxpower :: rest) := by
  have h0 : 0 < 2 := by decide
  have hw : window 2 busRamp initialState = .ok smallFirst := by decide!
  have hp : samplePass 2 busRamp 0 (windowReset initialState) = .ok smallPass := by decide!
  exact ⟨⟨h0, hw, hp⟩,
    peak_tracking 2 busRamp initialState smallFirst 0 (windowReset initialState) smallPass
      h0 hw hp⟩

/-- Witness of C17: rail index 3 in the first window of two samples on
`busRamp`. -/
theorem reported_row_contents_witness :
    (0 < 2 ∧ window 2 busRamp initialState = .ok smallFirst ∧
      smallFirst.rails[3]? = some smallRail3) ∧
    ∃ rows x, smallFirst.world.out
        = Output.footer smallFirst.totalPower smallFirst.maxpower
            :: (rows ++ Output.header :: initialState.world.out) ∧
      rows.length = initialState.rails.length ∧
      (samplesOf 3 smallFirst.samples).getLast? = some x ∧ x.k = 2 - 1 ∧
      rows.reverse[3]?
        = some (Output.row smallRail3.name x.voltage (smallRail3.average_current * 1000)
            smallRail3.average_power) ∧
      (samplesOf 3 smallFirst.samples).map (fun y => y.k) = List.range 2 ∧
      smallRail3.average_power
        = ((samplesOf 3 smallFirst.samples).map
            fun y => y.voltage * y.current * 1000 / ((2 : Nat) : ℚ)).sum ∧
      smallRail3.average_current
        = ((samplesOf 3 smallFirst.samples).map fun y => y.current / ((2 : Nat) : ℚ)).sum := by
  have h0 : 0 < 2 := by decide
  have hw : window 2 busRamp initialState = .ok smallFirst := by decide!
  have hr : smallFirst.rails[3]? = some smallRail3 := by decide!
  exact ⟨⟨h0, hw, hr⟩,
    reported_row_contents 2 busRamp initialState smallFirst 3 smallRail3 h0 hw hr⟩

/-- Witness of C18: the first window of two samples on `busRamp`. -/
theorem total_is_sum_of_rails_witness :
    (0 < 2 ∧ window 2 busRamp initialState = .ok smallFirst) ∧
    ((∀ n i, totalEqSum
      (finalState (forLoop (railStep 2 busRamp n) i
        (finalState (forLoop (samplePass 2 busRamp) n (windowReset initialState)))))) ∧
    smallFirst.totalPower = (smallFirst.rails.map fun x => x.average_power).sum ∧
    ∃ rows, smallFirst.world.out
        = Output.footer smallFirst.totalPower smallFirst.maxpower
            :: (rows ++ Output.header :: initialState.world.out) ∧
      (rows.map Output.rowPower).sum = smallFirst.totalPower) := by
  have h0 : 0 < 2 := by decide
  have hw : window 2 busRamp initialState = .ok smallFirst := by decide!
  exact ⟨⟨h0, hw⟩, total_is_sum_of_rails 2 busRamp initialState smallFirst h0 hw⟩

/-- Witness of C19: the first two windows of two samples on `busRamp`, where
every sample has positive or zero power. -/
theorem peak_check_redundant_witness :
    (0 < 2 ∧ window 2 busRamp initialState = .ok smallFirst ∧
      (∀ x ∈ smallFirst.samples, 0 ≤ x.voltage * x.current) ∧
      mainLoop 2 busRamp 2 initialState = .ok smallSecond ∧
      ∀ m, m < 2 → ∀ t, mainLoop 2 busRamp (m + 1) initialState = .ok t →
        ∀ x ∈ t.samples, 0 ≤ x.voltage * x.current) ∧
    ((∀ k, k + 1 < 2 →
      aggregateAfter 2 busRamp initialState k ≤ aggregateAfter 2 busRamp initialState (k + 1)) ∧
    smallFirst.maxpower = max initialState.maxpower smallFirst.totalPower ∧
    (smallSecond.maxpower = initialState.maxpower ∨
      ∃ m, m < 2 ∧ ∃ t, mainLoop 2 busRamp (m + 1) initialState = .ok t ∧
        smallSecond.maxpower = t.totalPower)) := by
  have h0 : 0 < 2 := by decide
  have hw : window 2 busRamp initialState = .ok smallFirst := by decide!
  have hpos : ∀ x ∈ smallFirst.samples, 0 ≤ x.voltage * x.current := by decide!
  have h1 : mainLoop 2 busRamp 1 initialState = .ok smallFirst := by decide!
  have hn : mainLoop 2 busRamp 2 initialState = .ok smallSecond := by decide!
  have hpos2 : ∀ x ∈ smallSecond.samples, 0 ≤ x.voltage * x.current := by decide!
  have hall : ∀ m, m < 2 → ∀ t, mainLoop 2 busRamp (m + 1) initialState = .ok t →
      ∀ x ∈ t.samples, 0 ≤ x.voltage * x.current := by
    intro m hm t ht
    have hcases : m = 0 ∨ m = 1 := by omega
    rcases hcases with rfl | rfl
    · rw [h1] at ht
      simp only [Except.ok.injEq] at ht
      subst ht
      exact hpos
    · rw [hn] at ht
      simp only [Except.ok.injEq] at ht
      subst ht
      exact hpos2
  exact ⟨⟨h0, hw, hpos, hn, hall⟩,
    peak_check_redundant 2 busRamp initialState smallFirst 2 initialState smallSecond
      h0 hw hpos hn hall⟩

end PowerMonitor
